import Mathlib

/-!
Verification of the DA3D denoiser core (src/DA3D.cpp) against its design
specification.  The C++ code is shallowly embedded in Lean: pure loops become
pure functions, `float` arithmetic is idealised as exact arithmetic (ℚ, or the
field ℚ(√2,√3) where the color transform's square-root constants live), and the
collaborators whose sources are not in the repository (Image accessors, the
WeightMap, the DFT patch, `utils::fastexp`, `utils::NextPowerOf2`) are modelled
from the specification, as marked on each definition.  Division by zero follows
Lean's `x / 0 = 0` convention; every place where that matters is noted.
-/

set_option maxHeartbeats 1000000

namespace DA3D

/-! ### The field ℚ(√2,√3)

`Qrt a b c d` represents the real number `a + b·√2 + c·√3 + d·√6`.  The color
transform in `src/DA3D.cpp` (lines 24-58) uses the constants `sqrt(2)`,
`sqrt(3)`, `sqrt(6)`; this ring models them exactly (the C++ code uses their
`float` roundings). -/
structure Qrt where
  a : ℚ
  b : ℚ
  c : ℚ
  d : ℚ
deriving DecidableEq

theorem Qrt.ext2 (x y : Qrt) (ha : x.a = y.a) (hb : x.b = y.b)
    (hc : x.c = y.c) (hd : x.d = y.d) : x = y := by
  cases x; cases y; simp_all

def Qrt.add (x y : Qrt) : Qrt := ⟨x.a + y.a, x.b + y.b, x.c + y.c, x.d + y.d⟩

def Qrt.neg (x : Qrt) : Qrt := ⟨-x.a, -x.b, -x.c, -x.d⟩

def Qrt.sub (x y : Qrt) : Qrt := x.add y.neg

/-- Multiplication, using √2·√3 = √6, √2·√6 = 2√3, √3·√6 = 3√2. -/
def Qrt.mul (x y : Qrt) : Qrt :=
  ⟨x.a * y.a + 2 * (x.b * y.b) + 3 * (x.c * y.c) + 6 * (x.d * y.d),
   x.a * y.b + x.b * y.a + 3 * (x.c * y.d) + 3 * (x.d * y.c),
   x.a * y.c + x.c * y.a + 2 * (x.b * y.d) + 2 * (x.d * y.b),
   x.a * y.d + x.d * y.a + x.b * y.c + x.c * y.b⟩

/-- Conjugate negating √2 (and hence √6). -/
def Qrt.conj2 (x : Qrt) : Qrt := ⟨x.a, -x.b, x.c, -x.d⟩

/-- Conjugate negating √3 (and hence √6). -/
def Qrt.conj3 (x : Qrt) : Qrt := ⟨x.a, x.b, -x.c, -x.d⟩

/-- Scale all four coordinates by a rational. -/
def Qrt.scale (q : ℚ) (x : Qrt) : Qrt := ⟨q * x.a, q * x.b, q * x.c, q * x.d⟩

/-- Field inverse via the product of the three nontrivial Galois conjugates;
the norm `x · conj2 x · conj3 x · conj2 (conj3 x)` is rational. -/
def Qrt.inv (x : Qrt) : Qrt :=
  let p := (x.conj2.mul x.conj3).mul (x.conj2.conj3)
  let n := (x.mul p).a
  Qrt.scale n⁻¹ p

def Qrt.div (x y : Qrt) : Qrt := x.mul y.inv

/-- Embedding of the rationals. -/
def Qrt.ofRat (q : ℚ) : Qrt := ⟨q, 0, 0, 0⟩

instance : Add Qrt := ⟨Qrt.add⟩
instance : Neg Qrt := ⟨Qrt.neg⟩
instance : Sub Qrt := ⟨Qrt.sub⟩
instance : Mul Qrt := ⟨Qrt.mul⟩
instance : Div Qrt := ⟨Qrt.div⟩

/-- The constant √2. -/
def sqrt2 : Qrt := ⟨0, 1, 0, 0⟩

/-- The constant √3. -/
def sqrt3 : Qrt := ⟨0, 0, 1, 0⟩

/-- The constant √6. -/
def sqrt6 : Qrt := ⟨0, 0, 0, 1⟩

/-! ### Images for the color transform

Modelled from the spec: an Image is semantically a mapping
(row, col, channel) → float with shape queries (spec §3, §4.1); the element
accessor is `val(col, row, channel)` as in the C++ `Image` class.  Values are
taken in ℚ(√2,√3) so the transform's constants are exact. -/
structure QImg where
  rows : ℕ
  cols : ℕ
  channels : ℕ
  val : ℕ → ℕ → ℕ → Qrt

/-- Embedding of `ColorTransform` (src/DA3D.cpp lines 24-40): for 3-channel
images replace (r, g, b) at every pixel by
((r+g+b)/√3, (r−b)/√2, (r−2g+b)/√6); otherwise the image is returned
unchanged. -/
def ColorTransform (img : QImg) : QImg :=
  if img.channels = 3 then
    { img with
      val := fun col row ch =>
        let r := img.val col row 0
        let g := img.val col row 1
        let b := img.val col row 2
        if ch = 0 then (r + g + b) / sqrt3
        else if ch = 1 then (r - b) / sqrt2
        else if ch = 2 then (r - Qrt.ofRat 2 * g + b) / sqrt6
        else img.val col row ch }
  else img

/-- Embedding of `ColorTransformInverse` (src/DA3D.cpp lines 42-58): for
3-channel images replace (y, u, v) at every pixel by
((√2·y+√3·u+v)/√6, (y−√2·v)/√3, (√2·y−√3·u+v)/√6); otherwise the image is
returned unchanged. -/
def ColorTransformInverse (img : QImg) : QImg :=
  if img.channels = 3 then
    { img with
      val := fun col row ch =>
        let y := img.val col row 0
        let u := img.val col row 1
        let v := img.val col row 2
        if ch = 0 then (sqrt2 * y + sqrt3 * u + v) / sqrt6
        else if ch = 1 then (y - sqrt2 * v) / sqrt3
        else if ch = 2 then (sqrt2 * y - sqrt3 * u + v) / sqrt6
        else img.val col row ch }
  else img

theorem Qrt.div_def (x y : Qrt) : x / y = x.mul y.inv := rfl

@[simp] theorem Qrt.add_a (x y : Qrt) : (x + y).a = x.a + y.a := rfl
@[simp] theorem Qrt.add_b (x y : Qrt) : (x + y).b = x.b + y.b := rfl
@[simp] theorem Qrt.add_c (x y : Qrt) : (x + y).c = x.c + y.c := rfl
@[simp] theorem Qrt.add_d (x y : Qrt) : (x + y).d = x.d + y.d := rfl

@[simp] theorem Qrt.sub_a (x y : Qrt) : (x - y).a = x.a + -y.a := rfl
@[simp] theorem Qrt.sub_b (x y : Qrt) : (x - y).b = x.b + -y.b := rfl
@[simp] theorem Qrt.sub_c (x y : Qrt) : (x - y).c = x.c + -y.c := rfl
@[simp] theorem Qrt.sub_d (x y : Qrt) : (x - y).d = x.d + -y.d := rfl

@[simp] theorem Qrt.mul_a (x y : Qrt) :
    (x * y).a = x.a * y.a + 2 * (x.b * y.b) + 3 * (x.c * y.c)
      + 6 * (x.d * y.d) := rfl
@[simp] theorem Qrt.mul_b (x y : Qrt) :
    (x * y).b = x.a * y.b + x.b * y.a + 3 * (x.c * y.d) + 3 * (x.d * y.c) :=
  rfl
@[simp] theorem Qrt.mul_c (x y : Qrt) :
    (x * y).c = x.a * y.c + x.c * y.a + 2 * (x.b * y.d) + 2 * (x.d * y.b) :=
  rfl
@[simp] theorem Qrt.mul_d (x y : Qrt) :
    (x * y).d = x.a * y.d + x.d * y.a + x.b * y.c + x.c * y.b := rfl

theorem Qrt.inv_sqrt2 : Qrt.inv sqrt2 = ⟨0, 1/2, 0, 0⟩ := by
  norm_num [Qrt.inv, Qrt.conj2, Qrt.conj3, Qrt.mul, Qrt.scale, sqrt2, Qrt.mk.injEq]

theorem Qrt.inv_sqrt3 : Qrt.inv sqrt3 = ⟨0, 0, 1/3, 0⟩ := by
  norm_num [Qrt.inv, Qrt.conj2, Qrt.conj3, Qrt.mul, Qrt.scale, sqrt3, Qrt.mk.injEq]

theorem Qrt.inv_sqrt6 : Qrt.inv sqrt6 = ⟨0, 0, 0, 1/6⟩ := by
  norm_num [Qrt.inv, Qrt.conj2, Qrt.conj3, Qrt.mul, Qrt.scale, sqrt6, Qrt.mk.injEq]

theorem Qrt.mul_mk (x : Qrt) (p q u v : ℚ) :
    x.mul ⟨p, q, u, v⟩ = x * ⟨p, q, u, v⟩ := rfl

/-- Key pixel-level algebra: applying the inverse formulas to the forward
formulas returns the original (r, g, b), exactly, in ℚ(√2,√3). -/
theorem color_pixel_roundtrip (r g b : Qrt) :
    (sqrt2 * ((r + g + b) / sqrt3) + sqrt3 * ((r - b) / sqrt2)
        + (r - Qrt.ofRat 2 * g + b) / sqrt6) / sqrt6 = r ∧
    ((r + g + b) / sqrt3 - sqrt2 * ((r - Qrt.ofRat 2 * g + b) / sqrt6)) / sqrt3
        = g ∧
    (sqrt2 * ((r + g + b) / sqrt3) - sqrt3 * ((r - b) / sqrt2)
        + (r - Qrt.ofRat 2 * g + b) / sqrt6) / sqrt6 = b := by
  simp only [Qrt.div_def, Qrt.inv_sqrt2, Qrt.inv_sqrt3, Qrt.inv_sqrt6,
    Qrt.mul_mk]
  refine ⟨?_, ?_, ?_⟩ <;>
  · apply Qrt.ext2 <;>
    · simp only [Qrt.add_a, Qrt.add_b, Qrt.add_c, Qrt.add_d, Qrt.sub_a,
        Qrt.sub_b, Qrt.sub_c, Qrt.sub_d, Qrt.mul_a, Qrt.mul_b, Qrt.mul_c,
        Qrt.mul_d, Qrt.ofRat, sqrt2, sqrt3, sqrt6]
      ring

/-- C4: for every 3-channel image, ColorTransform followed by
ColorTransformInverse yields the original image at every pixel and channel
(exactly, in the idealised arithmetic of ℚ(√2,√3); exact equality implies the
claimed 1e-5 max-abs tolerance). -/
theorem colorTransform_roundtrip (img : QImg) (h : img.channels = 3)
    (col row ch : ℕ) :
    (ColorTransformInverse (ColorTransform img)).val col row ch
      = img.val col row ch := by
  have hCT : ColorTransform img
      = { img with
          val := fun col row ch =>
            if ch = 0 then
              (img.val col row 0 + img.val col row 1 + img.val col row 2)
                / sqrt3
            else if ch = 1 then (img.val col row 0 - img.val col row 2) / sqrt2
            else if ch = 2 then
              (img.val col row 0 - Qrt.ofRat 2 * img.val col row 1
                  + img.val col row 2) / sqrt6
            else img.val col row ch } := by
    simp only [ColorTransform, h, if_true]
  rw [hCT]
  simp only [ColorTransformInverse, h, if_true]
  by_cases h0 : ch = 0
  · subst h0
    simp only [if_true, if_pos]
    norm_num
    exact (color_pixel_roundtrip (img.val col row 0) (img.val col row 1)
      (img.val col row 2)).1
  by_cases h1 : ch = 1
  · subst h1
    simp only [h0]
    norm_num
    exact (color_pixel_roundtrip (img.val col row 0) (img.val col row 1)
      (img.val col row 2)).2.1
  by_cases h2 : ch = 2
  · subst h2
    simp only [h0, h1]
    norm_num
    exact (color_pixel_roundtrip (img.val col row 0) (img.val col row 1)
      (img.val col row 2)).2.2
  · simp [h0, h1, h2]

/-- Concrete instance of C4: round-trip on a 1×1 3-channel image with pixel
(1, 2, 3). -/
theorem colorTransform_roundtrip_witness :
    (QImg.mk 1 1 3 (fun _ _ ch => Qrt.ofRat ((ch : ℚ) + 1))).channels = 3 ∧
    (ColorTransformInverse (ColorTransform
        (QImg.mk 1 1 3 (fun _ _ ch => Qrt.ofRat ((ch : ℚ) + 1))))).val 0 0 1
      = (QImg.mk 1 1 3 (fun _ _ ch => Qrt.ofRat ((ch : ℚ) + 1))).val 0 0 1 :=
  ⟨rfl, colorTransform_roundtrip _ rfl 0 0 1⟩

/-- C9: ColorTransform and ColorTransformInverse leave the image unchanged for
every channel count other than 3 (not only the 1-channel case). -/
theorem colorTransform_nonthree_bypass (img : QImg) (h : img.channels ≠ 3) :
    ColorTransform img = img ∧ ColorTransformInverse img = img := by
  constructor <;> simp [ColorTransform, ColorTransformInverse, h]

/-- Concrete instance of C9: a 2-channel image (neither 1 nor 3 channels) is
passed through unchanged by both transforms. -/
theorem colorTransform_nonthree_bypass_witness :
    (QImg.mk 1 1 2 (fun _ _ _ => Qrt.ofRat 5)).channels ≠ 3 ∧
    (ColorTransform (QImg.mk 1 1 2 (fun _ _ _ => Qrt.ofRat 5))
        = QImg.mk 1 1 2 (fun _ _ _ => Qrt.ofRat 5) ∧
      ColorTransformInverse (QImg.mk 1 1 2 (fun _ _ _ => Qrt.ofRat 5))
        = QImg.mk 1 1 2 (fun _ _ _ => Qrt.ofRat 5)) :=
  ⟨by decide, colorTransform_nonthree_bypass _ (by decide)⟩

/-! ### Symmetric boundary folding -/

/-- First statement of `SymmetricCoordinate` (src/DA3D.cpp line 61):
`if (pos < 0) pos = -pos - 1`. -/
def symStep1 (pos : ℤ) : ℤ := if pos < 0 then -pos - 1 else pos

/-- Second statement (line 62): `if (pos >= 2 * size) pos %= 2 * size`.  The
operand is non-negative there, so C++ `%` agrees with `Int.emod`. -/
def symStep2 (pos size : ℤ) : ℤ :=
  if 2 * size ≤ pos then pos % (2 * size) else pos

/-- The reflection used on the upper half of the doubled range (line 63):
`pos ↦ 2·size − 1 − pos`. -/
def reflectTop (size pos : ℤ) : ℤ := 2 * size - 1 - pos

/-- Third statement (line 63): `if (pos >= size) pos = 2 * size - 1 - pos`. -/
def symStep3 (pos size : ℤ) : ℤ :=
  if size ≤ pos then reflectTop size pos else pos

/-- Embedding of `SymmetricCoordinate` (src/DA3D.cpp lines 60-65). -/
def symmetricCoordinate (pos size : ℤ) : ℤ :=
  symStep3 (symStep2 (symStep1 pos) size) size

/-- C5 counterexample: `SymmetricCoordinate` is not an involution on the
doubled range [0, 2·size): at size = 2 the in-range input pos = 2 maps to 1,
and 1 maps to 1 again, not back to 2. -/
theorem symmetricCoordinate_not_involution :
    (0 : ℤ) ≤ 2 ∧ (2 : ℤ) < 2 * 2 ∧
    symmetricCoordinate 2 2 = 1 ∧
    symmetricCoordinate (symmetricCoordinate 2 2) 2 = 1 ∧
    symmetricCoordinate (symmetricCoordinate 2 2) 2 ≠ 2 := by decide

/-- C5 (amended): `SymmetricCoordinate pos size` maps every integer into
[0, size) for size > 0; it follows the symmetric boundary convention
(−1 → 0 and size → size−1 for size ≥ 1; −2 → 1 and size+1 → size−2 for
size ≥ 2); it wraps modulo 2·size for far-out non-negative coordinates; and on
the doubled range [0, 2·size) it is *idempotent* (applying it twice equals
applying it once) while the reflection `reflectTop` it applies on the upper
half is an involution of the doubled range.  (The claim's involution property
fails for the folding itself, see `symmetricCoordinate_not_involution`.) -/
theorem symmetricCoordinate_spec (pos size : ℤ) (hs : 0 < size) :
    (0 ≤ symmetricCoordinate pos size ∧ symmetricCoordinate pos size < size) ∧
    symmetricCoordinate (-1) size = 0 ∧
    symmetricCoordinate size size = size - 1 ∧
    (2 ≤ size → symmetricCoordinate (-2) size = 1 ∧
      symmetricCoordinate (size + 1) size = size - 2) ∧
    (0 ≤ pos → symmetricCoordinate (pos + 2 * size) size
      = symmetricCoordinate pos size) ∧
    (0 ≤ pos → pos < 2 * size →
      symmetricCoordinate (symmetricCoordinate pos size) size
        = symmetricCoordinate pos size) ∧
    (0 ≤ pos → pos < 2 * size →
      0 ≤ reflectTop size pos ∧ reflectTop size pos < 2 * size ∧
      reflectTop size (reflectTop size pos) = pos) := by
  have h2s : 0 < 2 * size := by omega
  have hmod : ∀ q : ℤ, 0 ≤ q % (2 * size) ∧ q % (2 * size) < 2 * size :=
    fun q => ⟨Int.emod_nonneg q (by omega), Int.emod_lt_of_pos q h2s⟩
  have hs1 : ∀ p : ℤ, 0 ≤ symStep1 p := by
    intro p; unfold symStep1; split <;> omega
  have hs2 : ∀ p : ℤ, 0 ≤ p → 0 ≤ symStep2 p size ∧ symStep2 p size < 2 * size
      := by
    intro p hp; unfold symStep2; split
    · exact hmod p
    · omega
  have hs3 : ∀ p : ℤ, 0 ≤ p → p < 2 * size →
      0 ≤ symStep3 p size ∧ symStep3 p size < size := by
    intro p hp0 hp2; unfold symStep3 reflectTop; split <;> omega
  have hrange : ∀ p : ℤ, 0 ≤ symmetricCoordinate p size ∧
      symmetricCoordinate p size < size := by
    intro p
    have h1 := hs1 p
    have h2 := hs2 _ h1
    exact hs3 _ h2.1 h2.2
  have hsmall : ∀ p : ℤ, 0 ≤ p → p < 2 * size →
      symmetricCoordinate p size = symStep3 p size := by
    intro p hp0 hp2
    unfold symmetricCoordinate
    rw [show symStep1 p = p from if_neg (by omega),
        show symStep2 p size = p from if_neg (by omega)]
  refine ⟨hrange pos, ?_, ?_, ?_, ?_, ?_, ?_⟩
  · rw [show symmetricCoordinate (-1) size
        = symStep3 (symStep2 (symStep1 (-1)) size) size from rfl,
      show symStep1 (-1) = 0 from by unfold symStep1; norm_num,
      show symStep2 0 size = 0 from if_neg (by omega)]
    unfold symStep3; rw [if_neg (by omega)]
  · rw [hsmall size (by omega) (by omega)]
    unfold symStep3 reflectTop; rw [if_pos (by omega)]; ring
  · intro h2
    constructor
    · rw [show symmetricCoordinate (-2) size
          = symStep3 (symStep2 (symStep1 (-2)) size) size from rfl,
        show symStep1 (-2) = 1 from by unfold symStep1; norm_num,
        show symStep2 1 size = 1 from if_neg (by omega)]
      unfold symStep3; rw [if_neg (by omega)]
    · rw [hsmall (size + 1) (by omega) (by omega)]
      unfold symStep3 reflectTop; rw [if_pos (by omega)]; ring
  · intro hp0
    have e1 : symStep1 (pos + 2 * size) = pos + 2 * size := if_neg (by omega)
    have e2 : symStep1 pos = pos := if_neg (by omega)
    have e3 : symStep2 (pos + 2 * size) size = pos % (2 * size) := by
      unfold symStep2
      rw [if_pos (by omega), show pos + 2 * size = pos + 2 * size * 1 from by
        ring, Int.add_mul_emod_self_left]
    have e4 : symStep2 pos size = pos % (2 * size) := by
      unfold symStep2; split
      · rfl
      · rw [Int.emod_eq_of_lt hp0 (by omega)]
    unfold symmetricCoordinate
    rw [e1, e2, e3, e4]
  · intro hp0 hp2
    rw [hsmall pos hp0 hp2]
    have h3 := hs3 pos hp0 hp2
    rw [hsmall _ h3.1 (by omega)]
    generalize hq : symStep3 pos size = q at h3 ⊢
    unfold symStep3
    rw [if_neg (by omega)]
  · intro hp0 hp2
    unfold reflectTop
    refine ⟨by omega, by omega, by omega⟩

/-- Concrete instance of the amended C5 statement at pos = 5, size = 2. -/
theorem symmetricCoordinate_spec_witness :
    (0 : ℤ) < 2 ∧
    ((0 ≤ symmetricCoordinate 5 2 ∧ symmetricCoordinate 5 2 < 2) ∧
      symmetricCoordinate (-1) 2 = 0 ∧
      symmetricCoordinate 2 2 = 2 - 1 ∧
      (2 ≤ (2 : ℤ) → symmetricCoordinate (-2) 2 = 1 ∧
        symmetricCoordinate (2 + 1) 2 = 2 - 2) ∧
      (0 ≤ (5 : ℤ) → symmetricCoordinate (5 + 2 * 2) 2
        = symmetricCoordinate 5 2) ∧
      ((0 : ℤ) ≤ 5 → (5 : ℤ) < 2 * 2 →
        symmetricCoordinate (symmetricCoordinate 5 2) 2
          = symmetricCoordinate 5 2) ∧
      ((0 : ℤ) ≤ 5 → (5 : ℤ) < 2 * 2 →
        0 ≤ reflectTop 2 5 ∧ reflectTop 2 5 < 2 * 2 ∧
        reflectTop 2 (reflectTop 2 5) = 5)) :=
  ⟨by decide, symmetricCoordinate_spec 5 2 (by decide)⟩

/-! ### Tiling -/

/-- Embedding of the divisor search `while (tiles % r_low != 0) --r_low;`
(src/DA3D.cpp line 73): decrement from `k` until a divisor of `t` is found. -/
def dlowAux (t : ℕ) : ℕ → ℕ
  | 0 => 0
  | k + 1 => if t % (k + 1) = 0 then k + 1 else dlowAux t k

/-- Embedding of the divisor search `while (tiles % r_up != 0) ++r_up;`
(src/DA3D.cpp line 74): increment from `k` until a divisor of `t` is found,
with explicit fuel (the loop is entered only when `r_up ≤ tiles`, so fuel
`tiles` always suffices to reach the divisor `tiles`). -/
def dupAux (t : ℕ) : ℕ → ℕ → ℕ
  | 0, k => k
  | f + 1, k => if t % k = 0 then k else dupAux t f (k + 1)

/-- Embedding of `ComputeTiling` (src/DA3D.cpp lines 67-80).  The float
computation `(int)sqrt(tiles*rows/(float)columns)` is idealised to the exact
value ⌊√(tiles·rows/columns)⌋ = `Nat.sqrt (tiles * rows / columns)`. -/
def computeTiling (rows columns tiles : ℕ) : ℕ × ℕ :=
  let r_low := Nat.sqrt (tiles * rows / columns)
  let r_up := r_low + 1
  if r_low < 1 then (1, tiles)
  else if tiles < r_up then (tiles, 1)
  else
    let rl := dlowAux tiles r_low
    let ru := dupAux tiles tiles r_up
    if tiles * rows < ru * rl * columns then (rl, tiles / rl)
    else (ru, tiles / ru)

theorem dlowAux_spec (t : ℕ) :
    ∀ k, 1 ≤ k →
      dlowAux t k ∣ t ∧ 1 ≤ dlowAux t k ∧ dlowAux t k ≤ k ∧
        ∀ d, d ∣ t → d ≤ k → d ≤ dlowAux t k := by
  intro k
  induction k with
  | zero => intro h; exact absurd h (by omega)
  | succ n ih =>
    intro _
    unfold dlowAux
    split
    case isTrue h =>
      exact ⟨Nat.dvd_of_mod_eq_zero h, by omega, le_refl _, fun d _ hdk => hdk⟩
    case isFalse h =>
      have hn : 1 ≤ n := by
        rcases Nat.eq_zero_or_pos n with h0 | h1
        · subst h0; simp [Nat.mod_one] at h
        · exact h1
      obtain ⟨h1, h2, h3, h4⟩ := ih hn
      refine ⟨h1, h2, by omega, fun d hd hdk => ?_⟩
      rcases Nat.lt_or_ge d (n + 1) with hlt | hge
      · exact h4 d hd (by omega)
      · exfalso
        have hdn : d = n + 1 := by omega
        subst hdn
        obtain ⟨c, rfl⟩ := hd
        exact h (Nat.mul_mod_right _ c)

theorem dupAux_spec (t : ℕ) :
    ∀ f k, 1 ≤ k → k ≤ t → t ≤ k + f →
      dupAux t f k ∣ t ∧ k ≤ dupAux t f k ∧
        ∀ d, d ∣ t → k ≤ d → dupAux t f k ≤ d := by
  intro f
  induction f with
  | zero =>
    intro k h1 h2 h3
    have hk : k = t := by omega
    subst hk
    exact ⟨dvd_refl _, le_refl _, fun d _ hkd => hkd⟩
  | succ n ih =>
    intro k h1 h2 h3
    unfold dupAux
    split
    case isTrue h =>
      exact ⟨Nat.dvd_of_mod_eq_zero h, le_refl _, fun d _ hkd => hkd⟩
    case isFalse h =>
      have hkt : k < t := by
        rcases Nat.eq_or_lt_of_le h2 with he | hlt
        · exfalso; subst he; exact h (Nat.mod_self k)
        · exact hlt
      obtain ⟨h4, h5, h6⟩ := ih (k + 1) (by omega) (by omega) (by omega)
      refine ⟨h4, by omega, fun d hd hkd => ?_⟩
      rcases Nat.eq_or_lt_of_le hkd with he | hlt
      · exfalso
        subst he
        obtain ⟨c, rfl⟩ := hd
        exact h (Nat.mul_mod_right k c)
      · exact h6 d hd (by omega)

/-- Bridge between the integer square root used by the embedding and the real
√(tiles·rows/columns) the specification speaks about. -/
theorem natSqrt_le_iff_real (rows columns tiles m : ℕ) (hc : 0 < columns) :
    m ≤ Nat.sqrt (tiles * rows / columns) ↔
      (m : ℝ) ≤ Real.sqrt ((tiles * rows : ℕ) / (columns : ℝ)) := by
  rw [Nat.le_sqrt, Nat.le_div_iff_mul_le hc]
  rw [Real.le_sqrt (by positivity) (by positivity)]
  rw [le_div_iff₀ (by exact_mod_cast hc)]
  constructor
  · intro h
    calc ((m : ℝ)) ^ 2 * columns = ((m * m * columns : ℕ) : ℝ) := by
          push_cast; ring
      _ ≤ ((tiles * rows : ℕ) : ℝ) := by exact_mod_cast h
  · intro h
    have : ((m * m * columns : ℕ) : ℝ) ≤ ((tiles * rows : ℕ) : ℝ) := by
      calc ((m * m * columns : ℕ) : ℝ) = (m : ℝ) ^ 2 * columns := by
            push_cast; ring
        _ ≤ _ := h
    exact_mod_cast this

/-- C6: `ComputeTiling(H, W, N)` always returns a pair whose product is
exactly N; for f = √(N·H/W): if f < 1 it returns (1, N); if f > N it returns
(N, 1); otherwise the returned `tr` divides N, `tc = N / tr`, `tr` is one of
the two integer divisors of N nearest to f (the largest divisor ≤ f or the
smallest divisor ≥ f), and it minimises the aspect mismatch
|tr·tc·W − N·H| among such divisors (the mismatch expression is independent of
the choice because tr·tc = N for every candidate). -/
theorem computeTiling_spec (rows columns tiles : ℕ)
    (hr : 0 < rows) (hc : 0 < columns) (ht : 0 < tiles)
    (tr tc : ℕ) (f : ℝ)
    (heq : computeTiling rows columns tiles = (tr, tc))
    (hf : f = Real.sqrt ((tiles * rows : ℕ) / (columns : ℝ))) :
    tr * tc = tiles ∧
    (f < 1 → (tr, tc) = (1, tiles)) ∧
    ((tiles : ℝ) < f → (tr, tc) = (tiles, 1)) ∧
    (1 ≤ f → f ≤ (tiles : ℝ) →
      tr ∣ tiles ∧ tc = tiles / tr ∧
      (((tr : ℝ) ≤ f ∧ ∀ d, d ∣ tiles → (d : ℝ) ≤ f → d ≤ tr) ∨
        (f ≤ (tr : ℝ) ∧ ∀ d, d ∣ tiles → f ≤ (d : ℝ) → tr ≤ d)) ∧
      ∀ d, d ∣ tiles →
        (((d : ℝ) ≤ f ∧ ∀ e, e ∣ tiles → (e : ℝ) ≤ f → e ≤ d) ∨
          (f ≤ (d : ℝ) ∧ ∀ e, e ∣ tiles → f ≤ (e : ℝ) → d ≤ e)) →
        |((tr * tc * columns : ℕ) : ℤ) - ((tiles * rows : ℕ) : ℤ)|
          ≤ |((d * (tiles / d) * columns : ℕ) : ℤ)
              - ((tiles * rows : ℕ) : ℤ)|) := by
  have key : ∀ m : ℕ, m ≤ Nat.sqrt (tiles * rows / columns) ↔ (m : ℝ) ≤ f := by
    intro m; rw [hf]; exact natSqrt_le_iff_real rows columns tiles m hc
  have hf0 : 0 ≤ f := hf ▸ Real.sqrt_nonneg _
  have hf2 : f ^ 2 = ((tiles * rows : ℕ) : ℝ) / columns := by
    rw [hf]; exact Real.sq_sqrt (by positivity)
  simp only [computeTiling] at heq
  by_cases hA : Nat.sqrt (tiles * rows / columns) < 1
  · rw [if_pos hA] at heq
    injection heq with h1 h2
    subst h1; subst h2
    have hflt : f < 1 := by
      by_contra hge
      push_neg at hge
      have : (1 : ℕ) ≤ Nat.sqrt (tiles * rows / columns) :=
        (key 1).mpr (by push_cast; linarith)
      omega
    refine ⟨Nat.one_mul tiles, fun _ => rfl, fun hgt => ?_, fun h1f _ => ?_⟩
    · exfalso
      have : (1 : ℝ) ≤ tiles := by exact_mod_cast ht
      linarith
    · exfalso; linarith
  · rw [if_neg hA] at heq
    have h1rl : 1 ≤ Nat.sqrt (tiles * rows / columns) := by omega
    have h1f : (1 : ℝ) ≤ f := by
      have := (key 1).mp h1rl; push_cast at this; linarith
    by_cases hB : tiles < Nat.sqrt (tiles * rows / columns) + 1
    · rw [if_pos hB] at heq
      injection heq with h1 h2
      subst h1; subst h2
      have htf : (tiles : ℝ) ≤ f := (key tiles).mp (by omega)
      refine ⟨Nat.mul_one tiles, fun hlt => ?_, fun _ => rfl, fun _ hftt => ?_⟩
      · exfalso; linarith
      · refine ⟨dvd_refl tiles, (Nat.div_self ht).symm,
          Or.inl ⟨htf, fun d hd _ => Nat.le_of_dvd ht hd⟩, fun d hd _ => ?_⟩
        rw [show tiles * 1 * columns = tiles * columns from by ring,
          show d * (tiles / d) * columns = tiles * columns from by
            rw [Nat.mul_div_cancel' hd]]
    · rw [if_neg hB] at heq
      have hBle : Nat.sqrt (tiles * rows / columns) + 1 ≤ tiles := by omega
      obtain ⟨hrl_dvd, hrl_one, hrl_le, hrl_max⟩ :=
        dlowAux_spec tiles (Nat.sqrt (tiles * rows / columns)) h1rl
      obtain ⟨hru_dvd, hru_ge, hru_min⟩ :=
        dupAux_spec tiles tiles (Nat.sqrt (tiles * rows / columns) + 1)
          (by omega) hBle (by omega)
      have hrlf : ((dlowAux tiles (Nat.sqrt (tiles * rows / columns)) : ℕ) : ℝ)
          ≤ f := (key _).mp hrl_le
      have hfru : f < ((dupAux tiles tiles
          (Nat.sqrt (tiles * rows / columns) + 1) : ℕ) : ℝ) := by
        by_contra hge
        push_neg at hge
        have := (key _).mpr hge
        omega
      have hftiles : f < (tiles : ℝ) := by
        by_contra hge
        push_neg at hge
        have := (key tiles).mpr hge
        omega
      by_cases hcmp : tiles * rows
          < dupAux tiles tiles (Nat.sqrt (tiles * rows / columns) + 1)
            * dlowAux tiles (Nat.sqrt (tiles * rows / columns)) * columns
      · rw [if_pos hcmp] at heq
        injection heq with h1 h2
        subst h1; subst h2
        refine ⟨Nat.mul_div_cancel' hrl_dvd, fun hlt => absurd h1f (by linarith),
          fun hgt => absurd hgt (by linarith), fun _ _ => ?_⟩
        refine ⟨hrl_dvd, rfl, Or.inl ⟨hrlf, fun d hd hdf => ?_⟩,
          fun d hd _ => ?_⟩
        · exact hrl_max d hd ((key d).mpr hdf)
        · rw [show dlowAux tiles (Nat.sqrt (tiles * rows / columns))
                * (tiles / dlowAux tiles (Nat.sqrt (tiles * rows / columns)))
                * columns = tiles * columns from by
              rw [Nat.mul_div_cancel' hrl_dvd],
            show d * (tiles / d) * columns = tiles * columns from by
              rw [Nat.mul_div_cancel' hd]]
      · rw [if_neg hcmp] at heq
        injection heq with h1 h2
        subst h1; subst h2
        push_neg at hcmp
        refine ⟨Nat.mul_div_cancel' hru_dvd, fun hlt => absurd h1f (by linarith),
          fun hgt => absurd hgt (by linarith), fun _ _ => ?_⟩
        refine ⟨hru_dvd, rfl, Or.inr ⟨le_of_lt hfru, fun d hd hfd => ?_⟩,
          fun d hd _ => ?_⟩
        · rcases Nat.lt_or_ge (Nat.sqrt (tiles * rows / columns)) d with hgt | hle
          · exact hru_min d hd (by omega)
          · exfalso
            have hdf : (d : ℝ) ≤ f := (key d).mp hle
            have hdeq : (d : ℝ) = f := le_antisymm hdf hfd
            have hsq : ((d * d * columns : ℕ) : ℝ) = ((tiles * rows : ℕ) : ℝ)
                := by
              have h2 : (d : ℝ) ^ 2 * columns = ((tiles * rows : ℕ) : ℝ) := by
                rw [hdeq, hf2, div_mul_cancel₀]
                exact_mod_cast hc.ne'
              push_cast
              push_cast at h2
              linarith
            have hsqn : d * d * columns = tiles * rows := by exact_mod_cast hsq
            have hdrl : d ≤ dlowAux tiles (Nat.sqrt (tiles * rows / columns))
                := hrl_max d hd hle
            have hcontr : dupAux tiles tiles
                  (Nat.sqrt (tiles * rows / columns) + 1)
                  * dlowAux tiles (Nat.sqrt (tiles * rows / columns)) * columns
                ≤ dlowAux tiles (Nat.sqrt (tiles * rows / columns))
                  * dlowAux tiles (Nat.sqrt (tiles * rows / columns))
                  * columns := by
              calc dupAux tiles tiles (Nat.sqrt (tiles * rows / columns) + 1)
                    * dlowAux tiles (Nat.sqrt (tiles * rows / columns))
                    * columns
                  ≤ tiles * rows := hcmp
                _ = d * d * columns := hsqn.symm
                _ ≤ dlowAux tiles (Nat.sqrt (tiles * rows / columns))
                    * dlowAux tiles (Nat.sqrt (tiles * rows / columns))
                    * columns :=
                      Nat.mul_le_mul_right _ (Nat.mul_le_mul hdrl hdrl)
            have hle1 : dupAux tiles tiles
                  (Nat.sqrt (tiles * rows / columns) + 1)
                  * dlowAux tiles (Nat.sqrt (tiles * rows / columns))
                ≤ dlowAux tiles (Nat.sqrt (tiles * rows / columns))
                  * dlowAux tiles (Nat.sqrt (tiles * rows / columns)) :=
              Nat.le_of_mul_le_mul_right hcontr hc
            have hle2 : dupAux tiles tiles
                  (Nat.sqrt (tiles * rows / columns) + 1)
                ≤ dlowAux tiles (Nat.sqrt (tiles * rows / columns)) :=
              Nat.le_of_mul_le_mul_right hle1 (by omega)
            omega
        · rw [show dupAux tiles tiles (Nat.sqrt (tiles * rows / columns) + 1)
                * (tiles / dupAux tiles tiles
                    (Nat.sqrt (tiles * rows / columns) + 1))
                * columns = tiles * columns from by
              rw [Nat.mul_div_cancel' hru_dvd],
            show d * (tiles / d) * columns = tiles * columns from by
              rw [Nat.mul_div_cancel' hd]]

/-- Concrete instance of C6 at H = 2, W = 1, N = 2 (f = √4 = 2, result
(2, 1)). -/
theorem computeTiling_spec_witness :
    ((0 : ℕ) < 2 ∧ (0 : ℕ) < 1 ∧ (0 : ℕ) < 2 ∧
      computeTiling 2 1 2 = (2, 1) ∧
      Real.sqrt (((2 * 2 : ℕ) : ℝ) / ((1 : ℕ) : ℝ))
        = Real.sqrt (((2 * 2 : ℕ) : ℝ) / ((1 : ℕ) : ℝ))) ∧
    ((2 : ℕ) * 1 = 2 ∧
      (Real.sqrt (((2 * 2 : ℕ) : ℝ) / ((1 : ℕ) : ℝ)) < 1 →
        ((2 : ℕ), (1 : ℕ)) = (1, 2)) ∧
      (((2 : ℕ) : ℝ) < Real.sqrt (((2 * 2 : ℕ) : ℝ) / ((1 : ℕ) : ℝ)) →
        ((2 : ℕ), (1 : ℕ)) = (2, 1)) ∧
      (1 ≤ Real.sqrt (((2 * 2 : ℕ) : ℝ) / ((1 : ℕ) : ℝ)) →
        Real.sqrt (((2 * 2 : ℕ) : ℝ) / ((1 : ℕ) : ℝ)) ≤ ((2 : ℕ) : ℝ) →
        (2 : ℕ) ∣ 2 ∧ (1 : ℕ) = 2 / 2 ∧
        ((((2 : ℕ) : ℝ) ≤ Real.sqrt (((2 * 2 : ℕ) : ℝ) / ((1 : ℕ) : ℝ)) ∧
            ∀ d : ℕ, d ∣ 2 →
              (d : ℝ) ≤ Real.sqrt (((2 * 2 : ℕ) : ℝ) / ((1 : ℕ) : ℝ)) →
              d ≤ 2) ∨
          (Real.sqrt (((2 * 2 : ℕ) : ℝ) / ((1 : ℕ) : ℝ)) ≤ ((2 : ℕ) : ℝ) ∧
            ∀ d : ℕ, d ∣ 2 →
              Real.sqrt (((2 * 2 : ℕ) : ℝ) / ((1 : ℕ) : ℝ)) ≤ (d : ℝ) →
              2 ≤ d)) ∧
        ∀ d : ℕ, d ∣ 2 →
          (((d : ℝ) ≤ Real.sqrt (((2 * 2 : ℕ) : ℝ) / ((1 : ℕ) : ℝ)) ∧
              ∀ e : ℕ, e ∣ 2 →
                (e : ℝ) ≤ Real.sqrt (((2 * 2 : ℕ) : ℝ) / ((1 : ℕ) : ℝ)) →
                e ≤ d) ∨
            (Real.sqrt (((2 * 2 : ℕ) : ℝ) / ((1 : ℕ) : ℝ)) ≤ (d : ℝ) ∧
              ∀ e : ℕ, e ∣ 2 →
                Real.sqrt (((2 * 2 : ℕ) : ℝ) / ((1 : ℕ) : ℝ)) ≤ (e : ℝ) →
                d ≤ e)) →
          |((2 * 1 * 1 : ℕ) : ℤ) - ((2 * 2 : ℕ) : ℤ)|
            ≤ |((d * (2 / d) * 1 : ℕ) : ℤ) - ((2 * 2 : ℕ) : ℤ)|)) :=
  have hct : computeTiling 2 1 2 = (2, 1) := by
    have hs : Nat.sqrt (2 * 2 / 1) = 2 := by
      rw [show (2 * 2 / 1 : ℕ) = 2 * 2 from rfl]
      exact Nat.sqrt_eq 2
    simp [computeTiling, hs]
  ⟨⟨by decide, by decide, by decide, hct, rfl⟩,
    computeTiling_spec 2 1 2 (by decide) (by decide) (by decide) 2 1
      (Real.sqrt (((2 * 2 : ℕ) : ℝ) / ((1 : ℕ) : ℝ))) hct rfl⟩

/-! ### Linear-layout images and patch extraction

`FastExtractPatch` walks the flat buffers directly, so this part of the
development models the Image buffer with its linear layout.  Modelled from the
spec (§4.1): element (col, row, ch) lives at linear index
((row·W) + col)·C + ch. -/
structure LImg where
  rows : ℕ
  cols : ℕ
  channels : ℕ
  data : ℕ → ℚ

/-- Element access through the (col, row, channel) accessor (spec §4.1). -/
def LImg.val3 (img : LImg) (col row ch : ℕ) : ℚ :=
  img.data ((row * img.cols + col) * img.channels + ch)

/-- Element access through the linear accessor `val(i)`. -/
def LImg.val1 (img : LImg) (i : ℕ) : ℚ := img.data i

/-- Write through the linear accessor. -/
def LImg.write1 (img : LImg) (i : ℕ) (v : ℚ) : LImg :=
  { img with data := fun n => if n = i then v else img.data n }

/-- Write through the (col, row, channel) accessor. -/
def LImg.write3 (img : LImg) (col row ch : ℕ) (v : ℚ) : LImg :=
  img.write1 ((row * img.cols + col) * img.channels + ch) v

@[simp] theorem LImg.write1_rows (img : LImg) (i : ℕ) (v : ℚ) :
    (img.write1 i v).rows = img.rows := rfl
@[simp] theorem LImg.write1_cols (img : LImg) (i : ℕ) (v : ℚ) :
    (img.write1 i v).cols = img.cols := rfl
@[simp] theorem LImg.write1_channels (img : LImg) (i : ℕ) (v : ℚ) :
    (img.write1 i v).channels = img.channels := rfl

/-- Innermost loop of `ExtractPatch` (src/DA3D.cpp line 148): channels
0..n−1. -/
def extractChanLoop (src : LImg) (pr pc col row : ℕ) : ℕ → LImg → LImg
  | 0, d => d
  | n + 1, d =>
      (extractChanLoop src pr pc col row n d).write3 col row n
        (src.val3 (pc + col) (pr + row) n)

/-- Middle loop of `ExtractPatch` (line 147): columns 0..n−1. -/
def extractColLoop (src : LImg) (pr pc row : ℕ) : ℕ → LImg → LImg
  | 0, d => d
  | n + 1, d =>
      let d1 := extractColLoop src pr pc row n d
      extractChanLoop src pr pc n row d1.channels d1

/-- Outer loop of `ExtractPatch` (line 146): rows 0..n−1. -/
def extractRowLoop (src : LImg) (pr pc : ℕ) : ℕ → LImg → LImg
  | 0, d => d
  | n + 1, d =>
      let d1 := extractRowLoop src pr pc n d
      extractColLoop src pr pc n d1.cols d1

/-- Embedding of `ExtractPatch` (src/DA3D.cpp lines 144-153):
`dst->val(col, row, chan) = src.val(pc + col, pr + row, chan)` over the whole
destination patch. -/
def ExtractPatch (src : LImg) (pr pc : ℕ) (dst : LImg) : LImg :=
  extractRowLoop src pr pc dst.rows dst

/-- Inner loop of `FastExtractPatch` (src/DA3D.cpp line 160): `n` iterations
of `dst->val(i) = src.val(j); ++i; ++j` on the state (image, i, j). -/
def fastElLoop (src : LImg) : ℕ → LImg × ℕ × ℕ → LImg × ℕ × ℕ
  | 0, st => st
  | n + 1, st =>
      let st1 := fastElLoop src n st
      (st1.1.write1 st1.2.1 (src.val1 st1.2.2), st1.2.1 + 1, st1.2.2 + 1)

/-- Outer loop of `FastExtractPatch` (lines 158-159): `n` rows, each running
`w·c` element copies and then advancing `j` by `skip`. -/
def fastRowLoop (src : LImg) (w c skip : ℕ) :
    ℕ → LImg × ℕ × ℕ → LImg × ℕ × ℕ
  | 0, st => st
  | n + 1, st =>
      let st1 := fastRowLoop src w c skip n st
      let st2 := fastElLoop src (w * c) st1
      (st2.1, st2.2.1, st2.2.2 + skip)

/-- Embedding of `FastExtractPatch` (src/DA3D.cpp lines 155-164):
`i` starts at 0, `j` at `(pr·src.cols + pc)·src.channels`, the element count
per row is `dst.cols·dst.channels` and the row skip is
`(src.cols − dst.cols)·src.channels`. -/
def FastExtractPatch (src : LImg) (pr pc : ℕ) (dst : LImg) : LImg :=
  (fastRowLoop src dst.cols dst.channels
      ((src.cols - dst.cols) * src.channels) dst.rows
      (dst, 0, (pr * src.cols + pc) * src.channels)).1

theorem extractChanLoop_meta (src : LImg) (pr pc col row : ℕ) :
    ∀ n d, (extractChanLoop src pr pc col row n d).rows = d.rows ∧
      (extractChanLoop src pr pc col row n d).cols = d.cols ∧
      (extractChanLoop src pr pc col row n d).channels = d.channels := by
  intro n
  induction n with
  | zero => intro d; exact ⟨rfl, rfl, rfl⟩
  | succ k ih =>
    intro d
    unfold extractChanLoop
    obtain ⟨h1, h2, h3⟩ := ih d
    exact ⟨h1, h2, h3⟩

theorem extractColLoop_meta (src : LImg) (pr pc row : ℕ) :
    ∀ n d, (extractColLoop src pr pc row n d).rows = d.rows ∧
      (extractColLoop src pr pc row n d).cols = d.cols ∧
      (extractColLoop src pr pc row n d).channels = d.channels := by
  intro n
  induction n with
  | zero => intro d; exact ⟨rfl, rfl, rfl⟩
  | succ k ih =>
    intro d
    unfold extractColLoop
    obtain ⟨h1, h2, h3⟩ := ih d
    obtain ⟨g1, g2, g3⟩ := extractChanLoop_meta src pr pc k row
      (extractColLoop src pr pc row k d).channels (extractColLoop src pr pc row k d)
    exact ⟨g1.trans h1, g2.trans h2, g3.trans h3⟩

theorem extractRowLoop_meta (src : LImg) (pr pc : ℕ) :
    ∀ n d, (extractRowLoop src pr pc n d).rows = d.rows ∧
      (extractRowLoop src pr pc n d).cols = d.cols ∧
      (extractRowLoop src pr pc n d).channels = d.channels := by
  intro n
  induction n with
  | zero => intro d; exact ⟨rfl, rfl, rfl⟩
  | succ k ih =>
    intro d
    unfold extractRowLoop
    obtain ⟨h1, h2, h3⟩ := ih d
    obtain ⟨g1, g2, g3⟩ := extractColLoop_meta src pr pc k
      (extractRowLoop src pr pc k d).cols (extractRowLoop src pr pc k d)
    exact ⟨g1.trans h1, g2.trans h2, g3.trans h3⟩

theorem fastElLoop_meta (src : LImg) :
    ∀ n st, ((fastElLoop src n st).1.rows = st.1.rows ∧
        (fastElLoop src n st).1.cols = st.1.cols ∧
        (fastElLoop src n st).1.channels = st.1.channels) ∧
      (fastElLoop src n st).2.1 = st.2.1 + n ∧
      (fastElLoop src n st).2.2 = st.2.2 + n := by
  intro n
  induction n with
  | zero => intro st; exact ⟨⟨rfl, rfl, rfl⟩, rfl, rfl⟩
  | succ k ih =>
    intro st
    obtain ⟨⟨h1, h2, h3⟩, h4, h5⟩ := ih st
    unfold fastElLoop
    refine ⟨⟨h1, h2, h3⟩, ?_, ?_⟩ <;> simp only [h4, h5] <;> omega

theorem fastRowLoop_meta (src : LImg) (w c skip : ℕ) :
    ∀ n st, ((fastRowLoop src w c skip n st).1.rows = st.1.rows ∧
        (fastRowLoop src w c skip n st).1.cols = st.1.cols ∧
        (fastRowLoop src w c skip n st).1.channels = st.1.channels) ∧
      (fastRowLoop src w c skip n st).2.1 = st.2.1 + n * (w * c) ∧
      (fastRowLoop src w c skip n st).2.2 = st.2.2 + n * (w * c + skip) := by
  intro n
  induction n with
  | zero =>
    intro st
    refine ⟨⟨rfl, rfl, rfl⟩, ?_, ?_⟩ <;> simp [fastRowLoop]
  | succ k ih =>
    intro st
    obtain ⟨⟨h1, h2, h3⟩, h4, h5⟩ := ih st
    obtain ⟨⟨g1, g2, g3⟩, g4, g5⟩ :=
      fastElLoop_meta src (w * c) (fastRowLoop src w c skip k st)
    refine ⟨⟨?_, ?_, ?_⟩, ?_, ?_⟩
    · show (fastElLoop src (w * c) (fastRowLoop src w c skip k st)).1.rows
        = st.1.rows
      rw [g1, h1]
    · show (fastElLoop src (w * c) (fastRowLoop src w c skip k st)).1.cols
        = st.1.cols
      rw [g2, h2]
    · show (fastElLoop src (w * c) (fastRowLoop src w c skip k st)).1.channels
        = st.1.channels
      rw [g3, h3]
    · show (fastElLoop src (w * c) (fastRowLoop src w c skip k st)).2.1
        = st.2.1 + (k + 1) * (w * c)
      rw [g4, h4]; ring
    · show (fastElLoop src (w * c) (fastRowLoop src w c skip k st)).2.2 + skip
        = st.2.2 + (k + 1) * (w * c + skip)
      rw [g5, h5]; ring

theorem fastElLoop_data (src : LImg) :
    ∀ n st m, (fastElLoop src n st).1.data m =
      if st.2.1 ≤ m ∧ m < st.2.1 + n then src.data (st.2.2 + (m - st.2.1))
      else st.1.data m := by
  intro n
  induction n with
  | zero =>
    intro st m
    rw [if_neg (by omega)]
    rfl
  | succ k ih =>
    intro st m
    have hmeta := fastElLoop_meta src k st
    show (if m = (fastElLoop src k st).2.1
        then src.val1 (fastElLoop src k st).2.2
        else (fastElLoop src k st).1.data m) = _
    rw [ih st, hmeta.2.1, hmeta.2.2]
    by_cases h1 : m = st.2.1 + k
    · rw [if_pos h1, if_pos (by omega)]
      subst h1
      show src.data (st.2.2 + k) = _
      congr 1
      omega
    · rw [if_neg h1]
      by_cases h2 : st.2.1 ≤ m ∧ m < st.2.1 + k
      · rw [if_pos h2, if_pos (by omega)]
      · rw [if_neg h2, if_neg (by omega)]

theorem fastRowLoop_data (src : LImg) (w c skip : ℕ) :
    ∀ n st m, (fastRowLoop src w c skip n st).1.data m =
      if st.2.1 ≤ m ∧ m < st.2.1 + n * (w * c) then
        src.data (st.2.2 + ((m - st.2.1) / (w * c)) * (w * c + skip)
          + (m - st.2.1) % (w * c))
      else st.1.data m := by
  intro n
  induction n with
  | zero =>
    intro st m
    rw [if_neg (by omega)]
    rfl
  | succ k ih =>
    intro st m
    show (fastElLoop src (w * c) (fastRowLoop src w c skip k st)).1.data m = _
    rw [fastElLoop_data src (w * c) (fastRowLoop src w c skip k st) m]
    obtain ⟨hmeta1, hi, hj⟩ := fastRowLoop_meta src w c skip k st
    rw [hi, hj, ih st]
    have hsplit : (k + 1) * (w * c) = k * (w * c) + w * c := by ring
    by_cases hwc : w * c = 0
    · have e1 : k * (w * c) = 0 := by rw [hwc, Nat.mul_zero]
      have e2 : (k + 1) * (w * c) = 0 := by rw [hwc, Nat.mul_zero]
      rw [if_neg (show ¬(st.2.1 + k * (w * c) ≤ m
            ∧ m < st.2.1 + k * (w * c) + w * c) from by omega),
        if_neg (show ¬(st.2.1 ≤ m ∧ m < st.2.1 + k * (w * c)) from by omega),
        if_neg (show ¬(st.2.1 ≤ m ∧ m < st.2.1 + (k + 1) * (w * c)) from by
          omega)]
    · have hpos : 0 < w * c := Nat.pos_of_ne_zero hwc
      by_cases h1 : st.2.1 + k * (w * c) ≤ m ∧ m < st.2.1 + k * (w * c) + w * c
      · obtain ⟨t, ht0, htlt⟩ : ∃ t, m = st.2.1 + k * (w * c) + t ∧ t < w * c
            := by
          refine ⟨m - (st.2.1 + k * (w * c)),
            (Nat.add_sub_cancel' h1.1).symm, ?_⟩
          rw [tsub_lt_iff_left h1.1]
          exact h1.2
        subst ht0
        rw [if_pos h1, if_pos (show st.2.1 ≤ st.2.1 + k * (w * c) + t
            ∧ st.2.1 + k * (w * c) + t < st.2.1 + (k + 1) * (w * c) from by
          omega)]
        have hms : st.2.1 + k * (w * c) + t - st.2.1 = k * (w * c) + t := by
          rw [Nat.add_assoc, Nat.add_sub_cancel_left]
        have hms2 : st.2.1 + k * (w * c) + t - (st.2.1 + k * (w * c)) = t :=
          Nat.add_sub_cancel_left (st.2.1 + k * (w * c)) t
        have hform : k * (w * c) + t = w * c * k + t := by ring
        have hdiv : (k * (w * c) + t) / (w * c) = k := by
          rw [hform, Nat.mul_add_div hpos, Nat.div_eq_of_lt htlt, Nat.add_zero]
        have hmod : (k * (w * c) + t) % (w * c) = t := by
          rw [hform, Nat.mul_add_mod, Nat.mod_eq_of_lt htlt]
        rw [hms, hms2, hdiv, hmod]
      · rw [if_neg h1]
        by_cases h2 : st.2.1 ≤ m ∧ m < st.2.1 + k * (w * c)
        · rw [if_pos h2, if_pos (show st.2.1 ≤ m
              ∧ m < st.2.1 + (k + 1) * (w * c) from by omega)]
        · rw [if_neg h2, if_neg (show ¬(st.2.1 ≤ m
              ∧ m < st.2.1 + (k + 1) * (w * c)) from by omega)]

theorem extractChanLoop_data (src : LImg) (pr pc col row : ℕ) :
    ∀ n d m, (extractChanLoop src pr pc col row n d).data m =
      if (row * d.cols + col) * d.channels ≤ m ∧
          m < (row * d.cols + col) * d.channels + n then
        src.val3 (pc + col) (pr + row)
          (m - (row * d.cols + col) * d.channels)
      else d.data m := by
  intro n
  induction n with
  | zero =>
    intro d m
    rw [if_neg (by omega)]
    rfl
  | succ k ih =>
    intro d m
    obtain ⟨hr, hc2, hch⟩ := extractChanLoop_meta src pr pc col row k d
    show (if m = (row * (extractChanLoop src pr pc col row k d).cols + col)
          * (extractChanLoop src pr pc col row k d).channels + k
        then src.val3 (pc + col) (pr + row) k
        else (extractChanLoop src pr pc col row k d).data m) = _
    rw [hc2, hch, ih d]
    by_cases h1 : m = (row * d.cols + col) * d.channels + k
    · rw [if_pos h1, if_pos (show (row * d.cols + col) * d.channels ≤ m
          ∧ m < (row * d.cols + col) * d.channels + (k + 1) from by omega)]
      subst h1
      congr 1
      omega
    · rw [if_neg h1]
      by_cases h2 : (row * d.cols + col) * d.channels ≤ m
          ∧ m < (row * d.cols + col) * d.channels + k
      · rw [if_pos h2, if_pos (show (row * d.cols + col) * d.channels ≤ m
            ∧ m < (row * d.cols + col) * d.channels + (k + 1) from by omega)]
      · rw [if_neg h2, if_neg (show ¬((row * d.cols + col) * d.channels ≤ m
            ∧ m < (row * d.cols + col) * d.channels + (k + 1)) from by omega)]

theorem extractColLoop_data (src : LImg) (pr pc row : ℕ) :
    ∀ n d m, (extractColLoop src pr pc row n d).data m =
      if row * d.cols * d.channels ≤ m ∧
          m < row * d.cols * d.channels + n * d.channels then
        src.val3 (pc + (m - row * d.cols * d.channels) / d.channels) (pr + row)
          ((m - row * d.cols * d.channels) % d.channels)
      else d.data m := by
  intro n
  induction n with
  | zero =>
    intro d m
    rw [if_neg (by omega)]
    rfl
  | succ k ih =>
    intro d m
    obtain ⟨hr, hc2, hch⟩ := extractColLoop_meta src pr pc row k d
    show (extractChanLoop src pr pc k row
        (extractColLoop src pr pc row k d).channels
        (extractColLoop src pr pc row k d)).data m = _
    rw [extractChanLoop_data src pr pc k row
      (extractColLoop src pr pc row k d).channels
      (extractColLoop src pr pc row k d) m]
    rw [hc2, hch, ih d]
    have hexp : (row * d.cols + k) * d.channels
        = row * d.cols * d.channels + k * d.channels := by ring
    rw [hexp]
    have hsplit : (k + 1) * d.channels = k * d.channels + d.channels := by ring
    by_cases hC : d.channels = 0
    · have e1 : k * d.channels = 0 := by rw [hC, Nat.mul_zero]
      have e2 : (k + 1) * d.channels = 0 := by rw [hC, Nat.mul_zero]
      rw [if_neg (show ¬(row * d.cols * d.channels + k * d.channels ≤ m
            ∧ m < row * d.cols * d.channels + k * d.channels
              + d.channels) from by omega),
        if_neg (show ¬(row * d.cols * d.channels ≤ m
            ∧ m < row * d.cols * d.channels + k * d.channels) from by omega),
        if_neg (show ¬(row * d.cols * d.channels ≤ m
            ∧ m < row * d.cols * d.channels + (k + 1) * d.channels) from by
          omega)]
    · have hCpos : 0 < d.channels := Nat.pos_of_ne_zero hC
      by_cases h1 : row * d.cols * d.channels + k * d.channels ≤ m
          ∧ m < row * d.cols * d.channels + k * d.channels + d.channels
      · obtain ⟨t, ht0, htlt⟩ : ∃ t,
            m = row * d.cols * d.channels + k * d.channels + t
              ∧ t < d.channels := by
          refine ⟨m - (row * d.cols * d.channels + k * d.channels),
            (Nat.add_sub_cancel' h1.1).symm, ?_⟩
          rw [tsub_lt_iff_left h1.1]
          exact h1.2
        subst ht0
        rw [if_pos h1, if_pos (show row * d.cols * d.channels
            ≤ row * d.cols * d.channels + k * d.channels + t
            ∧ row * d.cols * d.channels + k * d.channels + t
              < row * d.cols * d.channels + (k + 1) * d.channels from by
          omega)]
        have hms : row * d.cols * d.channels + k * d.channels + t
            - row * d.cols * d.channels = k * d.channels + t := by
          rw [Nat.add_assoc, Nat.add_sub_cancel_left]
        have hms2 : row * d.cols * d.channels + k * d.channels + t
            - (row * d.cols * d.channels + k * d.channels) = t :=
          Nat.add_sub_cancel_left (row * d.cols * d.channels + k * d.channels) t
        have hform : k * d.channels + t = d.channels * k + t := by ring
        have hdiv : (k * d.channels + t) / d.channels = k := by
          rw [hform, Nat.mul_add_div hCpos, Nat.div_eq_of_lt htlt,
            Nat.add_zero]
        have hmod : (k * d.channels + t) % d.channels = t := by
          rw [hform, Nat.mul_add_mod, Nat.mod_eq_of_lt htlt]
        rw [hms, hms2, hdiv, hmod]
      · rw [if_neg h1]
        by_cases h2 : row * d.cols * d.channels ≤ m
            ∧ m < row * d.cols * d.channels + k * d.channels
        · rw [if_pos h2, if_pos (show row * d.cols * d.channels ≤ m
              ∧ m < row * d.cols * d.channels + (k + 1) * d.channels from by
            omega)]
        · rw [if_neg h2, if_neg (show ¬(row * d.cols * d.channels ≤ m
              ∧ m < row * d.cols * d.channels + (k + 1) * d.channels) from by
            omega)]

theorem extractRowLoop_data (src : LImg) (pr pc : ℕ) :
    ∀ n d m, (extractRowLoop src pr pc n d).data m =
      if m < n * (d.cols * d.channels) then
        src.val3 (pc + m % (d.cols * d.channels) / d.channels)
          (pr + m / (d.cols * d.channels))
          (m % (d.cols * d.channels) % d.channels)
      else d.data m := by
  intro n
  induction n with
  | zero =>
    intro d m
    rw [if_neg (by omega)]
    rfl
  | succ k ih =>
    intro d m
    obtain ⟨hr, hc2, hch⟩ := extractRowLoop_meta src pr pc k d
    show (extractColLoop src pr pc k (extractRowLoop src pr pc k d).cols
        (extractRowLoop src pr pc k d)).data m = _
    rw [extractColLoop_data src pr pc k (extractRowLoop src pr pc k d).cols
      (extractRowLoop src pr pc k d) m]
    rw [hc2, hch, ih d]
    have hexp : k * d.cols * d.channels = k * (d.cols * d.channels) := by ring
    have hexp2 : d.cols * d.channels = d.cols * d.channels := rfl
    rw [hexp]
    have hsplit : (k + 1) * (d.cols * d.channels)
        = k * (d.cols * d.channels) + d.cols * d.channels := by ring
    by_cases hWC : d.cols * d.channels = 0
    · have e1 : k * (d.cols * d.channels) = 0 := by rw [hWC, Nat.mul_zero]
      have e2 : (k + 1) * (d.cols * d.channels) = 0 := by
        rw [hWC, Nat.mul_zero]
      rw [if_neg (show ¬(k * (d.cols * d.channels) ≤ m
            ∧ m < k * (d.cols * d.channels) + d.cols * d.channels) from by
          omega),
        if_neg (show ¬(m < k * (d.cols * d.channels)) from by omega),
        if_neg (show ¬(m < (k + 1) * (d.cols * d.channels)) from by omega)]
    · have hWCpos : 0 < d.cols * d.channels := Nat.pos_of_ne_zero hWC
      by_cases h1 : k * (d.cols * d.channels) ≤ m
          ∧ m < k * (d.cols * d.channels) + d.cols * d.channels
      · obtain ⟨t, ht0, htlt⟩ : ∃ t,
            m = k * (d.cols * d.channels) + t ∧ t < d.cols * d.channels := by
          refine ⟨m - k * (d.cols * d.channels),
            (Nat.add_sub_cancel' h1.1).symm, ?_⟩
          rw [tsub_lt_iff_left h1.1]
          exact h1.2
        subst ht0
        rw [if_pos h1, if_pos (show k * (d.cols * d.channels) + t
            < (k + 1) * (d.cols * d.channels) from by omega)]
        have hms : k * (d.cols * d.channels) + t - k * (d.cols * d.channels)
            = t := Nat.add_sub_cancel_left (k * (d.cols * d.channels)) t
        have hform : k * (d.cols * d.channels) + t
            = d.cols * d.channels * k + t := by ring
        have hdiv : (k * (d.cols * d.channels) + t) / (d.cols * d.channels)
            = k := by
          rw [hform, Nat.mul_add_div hWCpos, Nat.div_eq_of_lt htlt,
            Nat.add_zero]
        have hmod : (k * (d.cols * d.channels) + t) % (d.cols * d.channels)
            = t := by
          rw [hform, Nat.mul_add_mod, Nat.mod_eq_of_lt htlt]
        rw [hms, hdiv, hmod]
      · rw [if_neg h1]
        by_cases h2 : m < k * (d.cols * d.channels)
        · rw [if_pos h2, if_pos (show m < (k + 1) * (d.cols * d.channels)
              from by omega)]
        · rw [if_neg h2, if_neg (show ¬(m < (k + 1) * (d.cols * d.channels))
              from by omega)]

theorem ExtractPatch_val3 (src dst : LImg) (pr pc col row ch : ℕ)
    (hcol : col < dst.cols) (hrow : row < dst.rows)
    (hch : ch < dst.channels) :
    (ExtractPatch src pr pc dst).val3 col row ch
      = src.val3 (pc + col) (pr + row) ch := by
  obtain ⟨hr, hc2, hch2⟩ := extractRowLoop_meta src pr pc dst.rows dst
  have hCpos : 0 < dst.channels := by omega
  have hWCpos : 0 < dst.cols * dst.channels := Nat.mul_pos (by omega) hCpos
  show (extractRowLoop src pr pc dst.rows dst).data
      ((row * (extractRowLoop src pr pc dst.rows dst).cols + col)
        * (extractRowLoop src pr pc dst.rows dst).channels + ch)
    = src.val3 (pc + col) (pr + row) ch
  rw [hc2, hch2, extractRowLoop_data src pr pc dst.rows dst]
  have hm : (row * dst.cols + col) * dst.channels + ch
      = row * (dst.cols * dst.channels) + (col * dst.channels + ch) := by ring
  have hlt1 : col * dst.channels + ch < dst.cols * dst.channels := by
    calc col * dst.channels + ch < col * dst.channels + dst.channels := by
          omega
      _ = (col + 1) * dst.channels := by ring
      _ ≤ dst.cols * dst.channels :=
          Nat.mul_le_mul_right _ (by omega)
  have hlt2 : row * (dst.cols * dst.channels) + (col * dst.channels + ch)
      < dst.rows * (dst.cols * dst.channels) := by
    calc row * (dst.cols * dst.channels) + (col * dst.channels + ch)
        < row * (dst.cols * dst.channels) + dst.cols * dst.channels := by
          omega
      _ = (row + 1) * (dst.cols * dst.channels) := by ring
      _ ≤ dst.rows * (dst.cols * dst.channels) :=
          Nat.mul_le_mul_right _ (by omega)
  rw [hm, if_pos hlt2]
  have hform : row * (dst.cols * dst.channels) + (col * dst.channels + ch)
      = dst.cols * dst.channels * row + (col * dst.channels + ch) := by ring
  have hdivWC : (row * (dst.cols * dst.channels)
      + (col * dst.channels + ch)) / (dst.cols * dst.channels) = row := by
    rw [hform, Nat.mul_add_div hWCpos, Nat.div_eq_of_lt hlt1, Nat.add_zero]
  have hmodWC : (row * (dst.cols * dst.channels)
      + (col * dst.channels + ch)) % (dst.cols * dst.channels)
      = col * dst.channels + ch := by
    rw [hform, Nat.mul_add_mod, Nat.mod_eq_of_lt hlt1]
  have hform2 : col * dst.channels + ch = dst.channels * col + ch := by ring
  have hdivC : (col * dst.channels + ch) / dst.channels = col := by
    rw [hform2, Nat.mul_add_div hCpos, Nat.div_eq_of_lt hch, Nat.add_zero]
  have hmodC : (col * dst.channels + ch) % dst.channels = ch := by
    rw [hform2, Nat.mul_add_mod, Nat.mod_eq_of_lt hch]
  rw [hdivWC, hmodWC, hdivC, hmodC]

theorem FastExtractPatch_val3 (src dst : LImg) (pr pc col row ch : ℕ)
    (hchan : dst.channels = src.channels)
    (hrows : pr + dst.rows ≤ src.rows) (hcols : pc + dst.cols ≤ src.cols)
    (hcol : col < dst.cols) (hrow : row < dst.rows)
    (hch : ch < dst.channels) :
    (FastExtractPatch src pr pc dst).val3 col row ch
      = src.val3 (pc + col) (pr + row) ch := by
  obtain ⟨⟨hr, hc2, hch2⟩, hsnd⟩ := fastRowLoop_meta src dst.cols dst.channels
    ((src.cols - dst.cols) * src.channels) dst.rows
    (dst, 0, (pr * src.cols + pc) * src.channels)
  have hr2 : (fastRowLoop src dst.cols dst.channels
      ((src.cols - dst.cols) * src.channels) dst.rows
      (dst, 0, (pr * src.cols + pc) * src.channels)).1.cols = dst.cols := hc2
  have hch3 : (fastRowLoop src dst.cols dst.channels
      ((src.cols - dst.cols) * src.channels) dst.rows
      (dst, 0, (pr * src.cols + pc) * src.channels)).1.channels
      = dst.channels := hch2
  have hCpos : 0 < dst.channels := by omega
  have hWCpos : 0 < dst.cols * dst.channels := Nat.mul_pos (by omega) hCpos
  show (fastRowLoop src dst.cols dst.channels
      ((src.cols - dst.cols) * src.channels) dst.rows
      (dst, 0, (pr * src.cols + pc) * src.channels)).1.data
      ((row * (fastRowLoop src dst.cols dst.channels
          ((src.cols - dst.cols) * src.channels) dst.rows
          (dst, 0, (pr * src.cols + pc) * src.channels)).1.cols + col)
        * (fastRowLoop src dst.cols dst.channels
          ((src.cols - dst.cols) * src.channels) dst.rows
          (dst, 0, (pr * src.cols + pc) * src.channels)).1.channels + ch)
    = src.val3 (pc + col) (pr + row) ch
  rw [hr2, hch3, fastRowLoop_data src dst.cols dst.channels
    ((src.cols - dst.cols) * src.channels) dst.rows
    (dst, 0, (pr * src.cols + pc) * src.channels)]
  have hm : (row * dst.cols + col) * dst.channels + ch
      = row * (dst.cols * dst.channels) + (col * dst.channels + ch) := by ring
  have hlt1 : col * dst.channels + ch < dst.cols * dst.channels := by
    calc col * dst.channels + ch < col * dst.channels + dst.channels := by
          omega
      _ = (col + 1) * dst.channels := by ring
      _ ≤ dst.cols * dst.channels :=
          Nat.mul_le_mul_right _ (by omega)
  have hlt2 : row * (dst.cols * dst.channels) + (col * dst.channels + ch)
      < dst.rows * (dst.cols * dst.channels) := by
    calc row * (dst.cols * dst.channels) + (col * dst.channels + ch)
        < row * (dst.cols * dst.channels) + dst.cols * dst.channels := by
          omega
      _ = (row + 1) * (dst.cols * dst.channels) := by ring
      _ ≤ dst.rows * (dst.cols * dst.channels) :=
          Nat.mul_le_mul_right _ (by omega)
  rw [hm]
  rw [if_pos (show ((dst : LImg), (0 : ℕ),
      (pr * src.cols + pc) * src.channels).2.1
        ≤ row * (dst.cols * dst.channels) + (col * dst.channels + ch)
      ∧ row * (dst.cols * dst.channels) + (col * dst.channels + ch)
        < ((dst : LImg), (0 : ℕ), (pr * src.cols + pc) * src.channels).2.1
          + dst.rows * (dst.cols * dst.channels) from
    ⟨Nat.zero_le _, by
      show row * (dst.cols * dst.channels) + (col * dst.channels + ch)
        < 0 + dst.rows * (dst.cols * dst.channels)
      omega⟩)]
  show src.data (((dst : LImg), (0 : ℕ),
      (pr * src.cols + pc) * src.channels).2.2
    + (row * (dst.cols * dst.channels) + (col * dst.channels + ch)
        - ((dst : LImg), (0 : ℕ), (pr * src.cols + pc) * src.channels).2.1)
      / (dst.cols * dst.channels)
      * (dst.cols * dst.channels + (src.cols - dst.cols) * src.channels)
    + (row * (dst.cols * dst.channels) + (col * dst.channels + ch)
        - ((dst : LImg), (0 : ℕ), (pr * src.cols + pc) * src.channels).2.1)
      % (dst.cols * dst.channels))
    = src.val3 (pc + col) (pr + row) ch
  have hz : row * (dst.cols * dst.channels) + (col * dst.channels + ch)
      - ((dst : LImg), (0 : ℕ), (pr * src.cols + pc) * src.channels).2.1
      = row * (dst.cols * dst.channels) + (col * dst.channels + ch) :=
    Nat.sub_zero _
  rw [hz]
  have hform : row * (dst.cols * dst.channels) + (col * dst.channels + ch)
      = dst.cols * dst.channels * row + (col * dst.channels + ch) := by ring
  have hdivWC : (row * (dst.cols * dst.channels)
      + (col * dst.channels + ch)) / (dst.cols * dst.channels) = row := by
    rw [hform, Nat.mul_add_div hWCpos, Nat.div_eq_of_lt hlt1, Nat.add_zero]
  have hmodWC : (row * (dst.cols * dst.channels)
      + (col * dst.channels + ch)) % (dst.cols * dst.channels)
      = col * dst.channels + ch := by
    rw [hform, Nat.mul_add_mod, Nat.mod_eq_of_lt hlt1]
  rw [hdivWC, hmodWC]
  have hrowlen : dst.cols * dst.channels + (src.cols - dst.cols) * src.channels
      = src.cols * src.channels := by
    rw [hchan, ← Nat.add_mul,
      show dst.cols + (src.cols - dst.cols) = src.cols from by omega]
  rw [hrowlen, hchan]
  show src.data ((pr * src.cols + pc) * src.channels
      + row * (src.cols * src.channels) + (col * src.channels + ch))
    = src.data (((pr + row) * src.cols + (pc + col)) * src.channels + ch)
  congr 1
  ring

/-- C8: for every source image and anchor (pr, pc) such that the destination
patch window lies fully inside the source (and the channel counts agree, as
they always do in the pipeline), FastExtractPatch writes exactly the same
values into the destination as ExtractPatch: the two extraction routines
agree at every in-range (col, row, channel). -/
theorem fastExtract_eq_extract (src dst : LImg) (pr pc col row ch : ℕ)
    (hchan : dst.channels = src.channels)
    (hrows : pr + dst.rows ≤ src.rows) (hcols : pc + dst.cols ≤ src.cols)
    (hcol : col < dst.cols) (hrow : row < dst.rows)
    (hch : ch < dst.channels) :
    (FastExtractPatch src pr pc dst).val3 col row ch
      = (ExtractPatch src pr pc dst).val3 col row ch := by
  rw [FastExtractPatch_val3 src dst pr pc col row ch hchan hrows hcols hcol
    hrow hch, ExtractPatch_val3 src dst pr pc col row ch hcol hrow hch]

/-- Concrete instance of C8: a 1×1 patch extracted at anchor (1, 1) from a
2×2 single-channel image. -/
theorem fastExtract_eq_extract_witness :
    ((LImg.mk 1 1 1 (fun _ => 0)).channels
        = (LImg.mk 2 2 1 (fun n => (n : ℚ))).channels ∧
      1 + (LImg.mk 1 1 1 (fun _ => 0)).rows
        ≤ (LImg.mk 2 2 1 (fun n => (n : ℚ))).rows ∧
      1 + (LImg.mk 1 1 1 (fun _ => 0)).cols
        ≤ (LImg.mk 2 2 1 (fun n => (n : ℚ))).cols ∧
      0 < (LImg.mk 1 1 1 (fun _ => 0)).cols ∧
      0 < (LImg.mk 1 1 1 (fun _ => 0)).rows ∧
      0 < (LImg.mk 1 1 1 (fun _ => 0)).channels) ∧
    (FastExtractPatch (LImg.mk 2 2 1 (fun n => (n : ℚ))) 1 1
        (LImg.mk 1 1 1 (fun _ => 0))).val3 0 0 0
      = (ExtractPatch (LImg.mk 2 2 1 (fun n => (n : ℚ))) 1 1
        (LImg.mk 1 1 1 (fun _ => 0))).val3 0 0 0 :=
  ⟨⟨rfl, by decide, by decide, by decide, by decide, by decide⟩,
    fastExtract_eq_extract (LImg.mk 2 2 1 (fun n => (n : ℚ)))
      (LImg.mk 1 1 1 (fun _ => 0)) 1 1 0 0 0 rfl (by decide) (by decide)
      (by decide) (by decide) (by decide)⟩

/-! ### The DA3D block pipeline

The per-patch pipeline of `DA3D_block` (src/DA3D.cpp lines 280-362) over exact
rational arithmetic.  Patches are functions (col, row[, chan]) → ℚ with the
square side `s` and channel count passed explicitly.  The whole section is
parametric in
 * `fexp`, modelling `utils::fastexp` (modelled from the spec: an approximation
   of e^x; its source is not in the repository), and
 * `Ft`/`St`, modelling `DftPatch::ToFreq`/`DftPatch::ToSpace` (modelled from
   the spec: a forward/inverse 2-D DFT pair whose inverse divides by S² so the
   round trip is the identity on the real part; its source is not in the
   repository).  Complex values are pairs (re, im) in ℚ × ℚ. -/

/-- Modelled from the spec: an Image as a mapping (col, row, channel) → float
with shape queries (spec §3, §4.1), over ℚ. -/
structure FImg where
  rows : ℕ
  cols : ℕ
  channels : ℕ
  val : ℕ → ℕ → ℕ → ℚ

/-- Helper for `nextPowerOfTwo`: keep doubling `acc` until it reaches `n`,
with explicit fuel. -/
def nptAux (n : ℕ) : ℕ → ℕ → ℕ
  | 0, acc => acc
  | fuel + 1, acc => if n ≤ acc then acc else nptAux n fuel (2 * acc)

/-- Modelled from the spec: `utils::NextPowerOf2`, the smallest power of two
that is ≥ n (fuel `n` suffices because 2^n ≥ n). -/
def nextPowerOfTwo (n : ℕ) : ℕ := nptAux n n 1

theorem nptAux_ge (n : ℕ) :
    ∀ fuel acc, n ≤ 2 ^ fuel * acc → n ≤ nptAux n fuel acc := by
  intro fuel
  induction fuel with
  | zero =>
    intro acc h
    unfold nptAux
    calc n ≤ 2 ^ 0 * acc := h
      _ = acc := by ring
  | succ f ih =>
    intro acc h
    unfold nptAux
    split
    case isTrue hle => exact hle
    case isFalse hgt =>
      exact ih (2 * acc) (by calc n ≤ 2 ^ (f + 1) * acc := h
        _ = 2 ^ f * (2 * acc) := by ring)

/-- The next power of two is at least its argument. -/
theorem le_nextPowerOfTwo (n : ℕ) : n ≤ nextPowerOfTwo n :=
  nptAux_ge n n 1 (by
    have := Nat.lt_two_pow n
    calc n ≤ 2 ^ n := le_of_lt this
      _ = 2 ^ n * 1 := by ring)

/-- The effect of `FastExtractPatch(src, pr, pc, &dst)` on the patch contents
(src/DA3D.cpp lines 155-164, proved equal to `ExtractPatch` in
`fastExtract_eq_extract`): the S×S×C window of `src` anchored at (pr, pc). -/
def extractF (src : FImg) (pr pc : ℕ) : ℕ → ℕ → ℕ → ℚ :=
  fun col row ch => src.val (pc + col) (pr + row) ch

section PipelineDefs

variable (fexp : ℚ → ℚ)
variable (Ft St : (ℕ → ℕ → ℕ → ℚ × ℚ) → (ℕ → ℕ → ℕ → ℚ × ℚ))

/-- Embedding of `BilateralWeight` (src/DA3D.cpp lines 166-183):
`k(col, row) = fastexp(−(‖g(col,row,·) − g(r,r,·)‖²/γσ²
+ ((row−r)² + (col−r)²)/(2σ_s²)))` with `c` channels. -/
def BilateralWeight (c : ℕ) (g : ℕ → ℕ → ℕ → ℚ) (r : ℕ)
    (gamma_r_sigma2 sigma_s2 : ℚ) : ℕ → ℕ → ℚ :=
  fun col row =>
    fexp (-((∑ chan ∈ Finset.range c,
          (g col row chan - g r r chan) * (g col row chan - g r r chan))
        / gamma_r_sigma2
      + (((row : ℚ) - r) * ((row : ℚ) - r)
          + ((col : ℚ) - r) * ((col : ℚ) - r)) / (2 * sigma_s2)))

/-- Embedding of `ComputeRegressionPlane` (src/DA3D.cpp lines 185-222) for an
s×s patch with `c` channels: the weighted sums A, B, C are accumulated over
the patch, and for each channel the pair (a_row, a_col) is produced by the
explicit 2×2 solve — unless the determinant A·C − B² is exactly zero, in which
case the plane is (0, 0) for every channel. -/
def ComputeRegressionPlane (s c : ℕ) (y g : ℕ → ℕ → ℕ → ℚ)
    (k : ℕ → ℕ → ℚ) (r : ℕ) : ℕ → ℚ × ℚ :=
  let a := ∑ row ∈ Finset.range s, ∑ col ∈ Finset.range s,
    ((row : ℚ) - r) * ((row : ℚ) - r) * k col row
  let b := ∑ row ∈ Finset.range s, ∑ col ∈ Finset.range s,
    ((row : ℚ) - r) * ((col : ℚ) - r) * k col row
  let c2 := ∑ row ∈ Finset.range s, ∑ col ∈ Finset.range s,
    ((col : ℚ) - r) * ((col : ℚ) - r) * k col row
  let det := a * c2 - b * b
  fun chan =>
    if det = 0 then (0, 0)
    else
      let d := ∑ row ∈ Finset.range s, ∑ col ∈ Finset.range s,
        ((row : ℚ) - r) * (y col row chan - g r r chan) * k col row
      let e := ∑ row ∈ Finset.range s, ∑ col ∈ Finset.range s,
        ((col : ℚ) - r) * (y col row chan - g r r chan) * k col row
      ((c2 * d - b * e) / det, (a * e - b * d) / det)

/-- Embedding of `SubtractPlane` (src/DA3D.cpp lines 224-233):
per channel subtract `a_row·(row−r) + a_col·(col−r)` in place. -/
def SubtractPlane (r : ℕ) (reg_plane : ℕ → ℚ × ℚ) (y : ℕ → ℕ → ℕ → ℚ) :
    ℕ → ℕ → ℕ → ℚ :=
  fun col row chan =>
    y col row chan
      - ((reg_plane chan).1 * ((row : ℚ) - r)
        + (reg_plane chan).2 * ((col : ℚ) - r))

/-- Embedding of `ModifyPatch` (src/DA3D.cpp lines 246-278) for an s×s patch
with `c` channels: returns the masked complex patch
`k·patch + (1 − k)·avg` (imaginary part 0) together with the per-channel
weighted averages `avg` (the `yt` output). -/
def ModifyPatch (s c : ℕ) (patch : ℕ → ℕ → ℕ → ℚ) (k : ℕ → ℕ → ℚ) :
    (ℕ → ℕ → ℕ → ℚ × ℚ) × (ℕ → ℚ) :=
  let weight := ∑ row ∈ Finset.range s, ∑ col ∈ Finset.range s, k col row
  let avg := fun chan =>
    (∑ row ∈ Finset.range s, ∑ col ∈ Finset.range s,
      k col row * patch col row chan) / weight
  (fun col row chan =>
      (k col row * patch col row chan + (1 - k col row) * avg chan, 0),
    avg)

/-- The shrinkage noise level of `DA3D_block` (src/DA3D.cpp lines 322-328):
`σ_f² = (Σ k(col,row)²)·σ²` (the code accumulates the sum of squares and then
multiplies by σ²). -/
def sigmaF2 (s : ℕ) (k : ℕ → ℕ → ℚ) (sigma2 : ℚ) : ℚ :=
  (∑ row ∈ Finset.range s, ∑ col ∈ Finset.range s, k col row * k col row)
    * sigma2

/-- Embedding of the frequency-shrinkage loop of `DA3D_block`
(src/DA3D.cpp lines 329-341): every bin with `row ≠ 0 ∨ col ≠ 0`
(`if (row || col)`) is multiplied by
`K = fastexp(−γ_f·σ_f² / |G(col,row,chan)|²)`; the DC bin is left untouched.
The division by `|G|²` is unguarded, exactly as in the code. -/
def ShrinkFreq (gamma_f sigma_f2 : ℚ) (yF gF : ℕ → ℕ → ℕ → ℚ × ℚ) :
    ℕ → ℕ → ℕ → ℚ × ℚ :=
  fun col row chan =>
    if row ≠ 0 ∨ col ≠ 0 then
      let g2 := (gF col row chan).1 * (gF col row chan).1
        + (gF col row chan).2 * (gF col row chan).2
      let kk := fexp (-gamma_f * sigma_f2 / g2)
      ((yF col row chan).1 * kk, (yF col row chan).2 * kk)
    else yF col row chan

end PipelineDefs

/-- Modelled from the spec: the row-major cell list of a (nr × nc) weight map
(spec §4.3; ties in the argmin scan are broken by row-major order). -/
def cellList (nr nc : ℕ) : List (ℕ × ℕ) :=
  (List.range (nr * nc)).map (fun i => (i / nc, i % nc))

/-- Modelled from the spec: `WeightMap::FindMinimum` — the coordinate of the
minimum value, with ties broken by row-major scan order (spec §4.3). -/
def FindMinimum (nr nc : ℕ) (w : ℕ → ℕ → ℚ) : ℕ × ℕ :=
  (cellList nr nc).foldl
    (fun best p => if w p.1 p.2 < w best.1 best.2 then p else best) (0, 0)

/-- Modelled from the spec: `WeightMap::Minimum` — the current minimum value
of the grid (spec §4.3). -/
def Minimum (nr nc : ℕ) (w : ℕ → ℕ → ℚ) : ℚ :=
  w (FindMinimum nr nc w).1 (FindMinimum nr nc w).2

/-- Modelled from the spec: `WeightMap::IncreaseWeights(k, row0, col0)` — add
`k(Δcol, Δrow)` to every grid cell `(row0+Δrow, col0+Δcol)` that falls inside
the grid, for (Δrow, Δcol) inside the s×s patch (spec §4.3).  `row0`, `col0`
may be negative (`pr − r`, `pc − r` in the caller). -/
def IncreaseWeights (nr nc s : ℕ) (w : ℕ → ℕ → ℚ) (k : ℕ → ℕ → ℚ)
    (row0 col0 : ℤ) : ℕ → ℕ → ℚ :=
  fun i j =>
    if i < nr ∧ j < nc ∧ row0 ≤ (i : ℤ) ∧ (i : ℤ) < row0 + s
        ∧ col0 ≤ (j : ℤ) ∧ (j : ℤ) < col0 + s then
      w i j + k ((j : ℤ) - col0).toNat ((i : ℤ) - row0).toNat
    else w i j

/-- The parameters of `DA3D_block` (src/DA3D.cpp line 280-282). -/
structure BlockParams where
  noisy : FImg
  guide : FImg
  sigma : ℚ
  r : ℕ
  sigma_s : ℚ
  gamma_r : ℚ
  gamma_f : ℚ

/-- The mutable state of the `DA3D_block` main loop: the accumulated output
and weight images and the aggregation weight map. -/
structure BlockState where
  output : ℕ → ℕ → ℕ → ℚ
  weights : ℕ → ℕ → ℚ
  agg : ℕ → ℕ → ℚ

/-- All three accumulators start at zero (src/DA3D.cpp lines 303-306). -/
def initState : BlockState :=
  ⟨fun _ _ _ => 0, fun _ _ => 0, fun _ _ => 0⟩

/-- `s = NextPowerOf2(2 r + 1)` (src/DA3D.cpp line 284). -/
def blockS (p : BlockParams) : ℕ := nextPowerOfTwo (2 * p.r + 1)

/-- Row count of the aggregation weight map (src/DA3D.cpp line 303). -/
def blockNr (p : BlockParams) : ℕ := p.guide.rows - blockS p + 1

/-- Column count of the aggregation weight map (src/DA3D.cpp line 303). -/
def blockNc (p : BlockParams) : ℕ := p.guide.cols - blockS p + 1

/-- The anchor selected by `agg_weights.FindMinimum(&pr, &pc)`
(src/DA3D.cpp line 310). -/
def blockAnchor (p : BlockParams) (st : BlockState) : ℕ × ℕ :=
  FindMinimum (blockNr p) (blockNc p) st.agg

/-- The extracted noisy patch `y` (src/DA3D.cpp line 311). -/
def blockY (p : BlockParams) (st : BlockState) : ℕ → ℕ → ℕ → ℚ :=
  extractF p.noisy (blockAnchor p st).1 (blockAnchor p st).2

/-- The extracted guide patch `g` (src/DA3D.cpp line 312). -/
def blockG (p : BlockParams) (st : BlockState) : ℕ → ℕ → ℕ → ℚ :=
  extractF p.guide (blockAnchor p st).1 (blockAnchor p st).2

/-- The regression bilateral mask `k_reg` with the widened scales
`gamma_rr_sigma2 = γ_r σ²·10` and `sigma_sr2 = σ_s²·2`
(src/DA3D.cpp lines 290-291 and 313). -/
def blockKreg (fexp : ℚ → ℚ) (p : BlockParams) (st : BlockState) :
    ℕ → ℕ → ℚ :=
  BilateralWeight fexp p.guide.channels (blockG p st) p.r
    (p.gamma_r * (p.sigma * p.sigma) * 10) (p.sigma_s * p.sigma_s * 2)

/-- The regression plane (src/DA3D.cpp line 314). -/
def blockPlane (fexp : ℚ → ℚ) (p : BlockParams) (st : BlockState) :
    ℕ → ℚ × ℚ :=
  ComputeRegressionPlane (blockS p) p.guide.channels (blockY p st)
    (blockG p st) (blockKreg fexp p st) p.r

/-- The detrended noisy patch (src/DA3D.cpp line 315). -/
def blockY1 (fexp : ℚ → ℚ) (p : BlockParams) (st : BlockState) :
    ℕ → ℕ → ℕ → ℚ :=
  SubtractPlane p.r (blockPlane fexp p st) (blockY p st)

/-- The detrended guide patch (src/DA3D.cpp line 316). -/
def blockG1 (fexp : ℚ → ℚ) (p : BlockParams) (st : BlockState) :
    ℕ → ℕ → ℕ → ℚ :=
  SubtractPlane p.r (blockPlane fexp p st) (blockG p st)

/-- The shrinkage bilateral mask `k` (src/DA3D.cpp line 317). -/
def blockK (fexp : ℚ → ℚ) (p : BlockParams) (st : BlockState) : ℕ → ℕ → ℚ :=
  BilateralWeight fexp p.guide.channels (blockG1 fexp p st) p.r
    (p.gamma_r * (p.sigma * p.sigma)) (p.sigma_s * p.sigma_s)

/-- The masked noisy patch and its per-channel averages `yt`
(src/DA3D.cpp line 318). -/
def blockYm (fexp : ℚ → ℚ) (p : BlockParams) (st : BlockState) :
    (ℕ → ℕ → ℕ → ℚ × ℚ) × (ℕ → ℚ) :=
  ModifyPatch (blockS p) p.guide.channels (blockY1 fexp p st)
    (blockK fexp p st)

/-- The masked guide patch (src/DA3D.cpp line 319). -/
def blockGm (fexp : ℚ → ℚ) (p : BlockParams) (st : BlockState) :
    (ℕ → ℕ → ℕ → ℚ × ℚ) × (ℕ → ℚ) :=
  ModifyPatch (blockS p) p.guide.channels (blockG1 fexp p st)
    (blockK fexp p st)

/-- `σ_f²` (src/DA3D.cpp lines 322-328). -/
def blockSf2 (fexp : ℚ → ℚ) (p : BlockParams) (st : BlockState) : ℚ :=
  sigmaF2 (blockS p) (blockK fexp p st) (p.sigma * p.sigma)

/-- The guide patch in the frequency domain, `g_m.freq`
(src/DA3D.cpp lines 321 and 333-334). -/
def blockGuideFreq (fexp : ℚ → ℚ)
    (Ft : (ℕ → ℕ → ℕ → ℚ × ℚ) → (ℕ → ℕ → ℕ → ℚ × ℚ))
    (p : BlockParams) (st : BlockState) : ℕ → ℕ → ℕ → ℚ × ℚ :=
  Ft (blockGm fexp p st).1

/-- The squared guide-bin magnitude `G2` of the shrinkage loop
(src/DA3D.cpp lines 333-334). -/
def blockG2 (fexp : ℚ → ℚ)
    (Ft : (ℕ → ℕ → ℕ → ℚ × ℚ) → (ℕ → ℕ → ℕ → ℚ × ℚ))
    (p : BlockParams) (st : BlockState) (col row chan : ℕ) : ℚ :=
  (blockGuideFreq fexp Ft p st col row chan).1
      * (blockGuideFreq fexp Ft p st col row chan).1
    + (blockGuideFreq fexp Ft p st col row chan).2
      * (blockGuideFreq fexp Ft p st col row chan).2

/-- The filtered patch back in the space domain (src/DA3D.cpp lines 320,
329-342): forward DFT, shrinkage, inverse DFT. -/
def blockYSpace (fexp : ℚ → ℚ)
    (Ft St : (ℕ → ℕ → ℕ → ℚ × ℚ) → (ℕ → ℕ → ℕ → ℚ × ℚ))
    (p : BlockParams) (st : BlockState) : ℕ → ℕ → ℕ → ℚ × ℚ :=
  St (ShrinkFreq fexp p.gamma_f (blockSf2 fexp p st)
    (Ft (blockYm fexp p st).1) (blockGuideFreq fexp Ft p st))

/-- One iteration of the main loop of `DA3D_block`
(src/DA3D.cpp lines 309-358): select the anchor, run the patch pipeline, and
accumulate into output, weights (with `k` squared in place, line 354) and the
aggregation weight map (line 358). -/
def blockStep (fexp : ℚ → ℚ)
    (Ft St : (ℕ → ℕ → ℕ → ℚ × ℚ) → (ℕ → ℕ → ℕ → ℚ × ℚ))
    (p : BlockParams) (st : BlockState) : BlockState :=
  { output := fun c0 r0 chan =>
      if (blockAnchor p st).2 ≤ c0 ∧ c0 < (blockAnchor p st).2 + blockS p
          ∧ (blockAnchor p st).1 ≤ r0 ∧ r0 < (blockAnchor p st).1 + blockS p
      then
        st.output c0 r0 chan
          + ((blockYSpace fexp Ft St p st (c0 - (blockAnchor p st).2)
                (r0 - (blockAnchor p st).1) chan).1
              + ((blockPlane fexp p st chan).1
                    * (((r0 - (blockAnchor p st).1 : ℕ) : ℚ) - p.r)
                  + (blockPlane fexp p st chan).2
                    * (((c0 - (blockAnchor p st).2 : ℕ) : ℚ) - p.r))
                * blockK fexp p st (c0 - (blockAnchor p st).2)
                  (r0 - (blockAnchor p st).1)
              - (1 - blockK fexp p st (c0 - (blockAnchor p st).2)
                  (r0 - (blockAnchor p st).1)) * (blockYm fexp p st).2 chan)
            * blockK fexp p st (c0 - (blockAnchor p st).2)
              (r0 - (blockAnchor p st).1)
      else st.output c0 r0 chan,
    weights := fun c0 r0 =>
      if (blockAnchor p st).2 ≤ c0 ∧ c0 < (blockAnchor p st).2 + blockS p
          ∧ (blockAnchor p st).1 ≤ r0 ∧ r0 < (blockAnchor p st).1 + blockS p
      then
        st.weights c0 r0
          + blockK fexp p st (c0 - (blockAnchor p st).2)
              (r0 - (blockAnchor p st).1)
            * blockK fexp p st (c0 - (blockAnchor p st).2)
              (r0 - (blockAnchor p st).1)
      else st.weights c0 r0,
    agg := IncreaseWeights (blockNr p) (blockNc p) (blockS p) st.agg
      (fun cc rr => blockK fexp p st cc rr * blockK fexp p st cc rr)
      (((blockAnchor p st).1 : ℤ) - p.r) (((blockAnchor p st).2 : ℤ) - p.r) }

/-- C7: in ComputeRegressionPlane, when the determinant A·C − B² of the
weighted normal equations is exactly zero the plane is (0, 0) for every
channel (an in-band fallback, no error); otherwise, for each channel the
returned pair (a_row, a_col) solves the 2×2 system
[[A, B], [B, C]]·[a_row, a_col]ᵀ = [D_ch, E_ch]ᵀ with the spec's weighted
sums. -/
theorem computeRegressionPlane_spec (s c : ℕ) (y g : ℕ → ℕ → ℕ → ℚ)
    (k : ℕ → ℕ → ℚ) (r : ℕ) (a b c2 : ℚ) (D E : ℕ → ℚ)
    (ha : a = ∑ row ∈ Finset.range s, ∑ col ∈ Finset.range s,
      ((row : ℚ) - r) * ((row : ℚ) - r) * k col row)
    (hb : b = ∑ row ∈ Finset.range s, ∑ col ∈ Finset.range s,
      ((row : ℚ) - r) * ((col : ℚ) - r) * k col row)
    (hc2 : c2 = ∑ row ∈ Finset.range s, ∑ col ∈ Finset.range s,
      ((col : ℚ) - r) * ((col : ℚ) - r) * k col row)
    (hD : ∀ chan, D chan = ∑ row ∈ Finset.range s, ∑ col ∈ Finset.range s,
      ((row : ℚ) - r) * (y col row chan - g r r chan) * k col row)
    (hE : ∀ chan, E chan = ∑ row ∈ Finset.range s, ∑ col ∈ Finset.range s,
      ((col : ℚ) - r) * (y col row chan - g r r chan) * k col row) :
    (a * c2 - b * b = 0 →
      ∀ chan, ComputeRegressionPlane s c y g k r chan = (0, 0)) ∧
    (a * c2 - b * b ≠ 0 → ∀ chan,
      a * (ComputeRegressionPlane s c y g k r chan).1
          + b * (ComputeRegressionPlane s c y g k r chan).2 = D chan ∧
      b * (ComputeRegressionPlane s c y g k r chan).1
          + c2 * (ComputeRegressionPlane s c y g k r chan).2 = E chan) := by
  have hbody : ∀ chan, ComputeRegressionPlane s c y g k r chan
      = if a * c2 - b * b = 0 then (0, 0)
        else ((c2 * D chan - b * E chan) / (a * c2 - b * b),
          (a * E chan - b * D chan) / (a * c2 - b * b)) := by
    intro chan
    simp only [ComputeRegressionPlane]
    rw [← ha, ← hb, ← hc2, ← hD chan, ← hE chan]
  constructor
  · intro hdet chan
    rw [hbody chan, if_pos hdet]
  · intro hdet chan
    rw [hbody chan, if_neg hdet]
    dsimp only
    constructor
    · rw [← mul_div_assoc, ← mul_div_assoc, div_add_div_same,
        div_eq_iff hdet]
      ring
    · rw [← mul_div_assoc, ← mul_div_assoc, div_add_div_same,
        div_eq_iff hdet]
      ring

/-- Concrete instance of C7 on a 1×1 "patch" with k ≡ 1, exercising the
singular branch (A = B = C = 0 at r = 0 over a 1×1 grid). -/
theorem computeRegressionPlane_spec_witness :
    ((0 : ℚ) = ∑ row ∈ Finset.range 1, ∑ col ∈ Finset.range 1,
        ((row : ℚ) - (0 : ℕ)) * ((row : ℚ) - (0 : ℕ)) * (1 : ℚ) ∧
      (0 : ℚ) * 0 - 0 * 0 = 0) ∧
    ComputeRegressionPlane 1 1 (fun _ _ _ => (2 : ℚ)) (fun _ _ _ => (2 : ℚ))
      (fun _ _ => (1 : ℚ)) 0 0 = (0, 0) :=
  ⟨⟨by norm_num, by norm_num⟩,
    (computeRegressionPlane_spec 1 1 (fun _ _ _ => (2 : ℚ))
        (fun _ _ _ => (2 : ℚ)) (fun _ _ => (1 : ℚ)) 0 0 0 0
        (fun _ => 0) (fun _ => 0)
        (by norm_num) (by norm_num) (by norm_num)
        (fun chan => by norm_num) (fun chan => by norm_num)).1
      (by norm_num) 0⟩

/-- C2: in the shrinkage step of DA3D_block, for every channel the DC bin
(u = v = 0) of the y DFT patch is left unchanged, and every other bin
(real and imaginary part) is multiplied by
fastexp(−γ_f·σ_f²/|G(u,v,ch)|²) with σ_f² = σ²·Σ k(col,row)². -/
theorem shrinkFreq_spec (fexp : ℚ → ℚ) (s : ℕ) (k : ℕ → ℕ → ℚ)
    (sigma2 gamma_f : ℚ) (yF gF : ℕ → ℕ → ℕ → ℚ × ℚ) :
    (∀ chan, ShrinkFreq fexp gamma_f (sigmaF2 s k sigma2) yF gF 0 0 chan
      = yF 0 0 chan) ∧
    (∀ col row chan, row ≠ 0 ∨ col ≠ 0 →
      ShrinkFreq fexp gamma_f (sigmaF2 s k sigma2) yF gF col row chan
        = ((yF col row chan).1
            * fexp (-(gamma_f * (sigma2 * ∑ row2 ∈ Finset.range s,
                ∑ col2 ∈ Finset.range s, k col2 row2 * k col2 row2)
              / ((gF col row chan).1 * (gF col row chan).1
                + (gF col row chan).2 * (gF col row chan).2))),
          (yF col row chan).2
            * fexp (-(gamma_f * (sigma2 * ∑ row2 ∈ Finset.range s,
                ∑ col2 ∈ Finset.range s, k col2 row2 * k col2 row2)
              / ((gF col row chan).1 * (gF col row chan).1
                + (gF col row chan).2 * (gF col row chan).2))))) := by
  constructor
  · intro chan
    simp only [ShrinkFreq]
    rw [if_neg (by simp)]
  · intro col row chan h
    simp only [ShrinkFreq]
    rw [if_pos h]
    have harg : -gamma_f * sigmaF2 s k sigma2
        / ((gF col row chan).1 * (gF col row chan).1
          + (gF col row chan).2 * (gF col row chan).2)
        = -(gamma_f * (sigma2 * ∑ row2 ∈ Finset.range s,
            ∑ col2 ∈ Finset.range s, k col2 row2 * k col2 row2)
          / ((gF col row chan).1 * (gF col row chan).1
            + (gF col row chan).2 * (gF col row chan).2)) := by
      rw [sigmaF2]
      ring
    rw [harg]

/-- Concrete instance of C2 at the DC bin (0,0) and the non-DC bin
(col, row) = (1, 0). -/
theorem shrinkFreq_spec_witness :
    (ShrinkFreq (fun _ => 1) 1 (sigmaF2 2 (fun _ _ => 1) 1)
        (fun _ _ _ => ((3 : ℚ), (5 : ℚ))) (fun _ _ _ => ((2 : ℚ), (0 : ℚ)))
        0 0 0
      = (fun (_ _ _ : ℕ) => ((3 : ℚ), (5 : ℚ))) 0 0 0) ∧
    (((0 : ℕ) ≠ 0 ∨ (1 : ℕ) ≠ 0) ∧
      ShrinkFreq (fun _ => 1) 1 (sigmaF2 2 (fun _ _ => 1) 1)
          (fun _ _ _ => ((3 : ℚ), (5 : ℚ))) (fun _ _ _ => ((2 : ℚ), (0 : ℚ)))
          1 0 0
        = (((fun (_ _ _ : ℕ) => ((3 : ℚ), (5 : ℚ))) 1 0 0).1
            * (fun (_ : ℚ) => (1 : ℚ))
              (-((1 : ℚ) * ((1 : ℚ) * ∑ row2 ∈ Finset.range 2,
                  ∑ col2 ∈ Finset.range 2, (1 : ℚ) * (1 : ℚ))
                / (((fun (_ _ _ : ℕ) => ((2 : ℚ), (0 : ℚ))) 1 0 0).1
                    * ((fun (_ _ _ : ℕ) => ((2 : ℚ), (0 : ℚ))) 1 0 0).1
                  + ((fun (_ _ _ : ℕ) => ((2 : ℚ), (0 : ℚ))) 1 0 0).2
                    * ((fun (_ _ _ : ℕ) => ((2 : ℚ), (0 : ℚ))) 1 0 0).2))),
          ((fun (_ _ _ : ℕ) => ((3 : ℚ), (5 : ℚ))) 1 0 0).2
            * (fun (_ : ℚ) => (1 : ℚ))
              (-((1 : ℚ) * ((1 : ℚ) * ∑ row2 ∈ Finset.range 2,
                  ∑ col2 ∈ Finset.range 2, (1 : ℚ) * (1 : ℚ))
                / (((fun (_ _ _ : ℕ) => ((2 : ℚ), (0 : ℚ))) 1 0 0).1
                    * ((fun (_ _ _ : ℕ) => ((2 : ℚ), (0 : ℚ))) 1 0 0).1
                  + ((fun (_ _ _ : ℕ) => ((2 : ℚ), (0 : ℚ))) 1 0 0).2
                    * ((fun (_ _ _ : ℕ) => ((2 : ℚ), (0 : ℚ))) 1 0 0).2))))) :=
  ⟨(shrinkFreq_spec (fun _ => 1) 2 (fun _ _ => 1) 1 1
      (fun _ _ _ => ((3 : ℚ), (5 : ℚ)))
      (fun _ _ _ => ((2 : ℚ), (0 : ℚ)))).1 0,
    Or.inr (by decide),
    (shrinkFreq_spec (fun _ => 1) 2 (fun _ _ => 1) 1 1
      (fun _ _ _ => ((3 : ℚ), (5 : ℚ)))
      (fun _ _ _ => ((2 : ℚ), (0 : ℚ)))).2 1 0 0 (Or.inr (by decide))⟩

/-- With σ_f² = 0 the shrinkage multiplies every non-DC bin by
fastexp(0) = 1, so the frequency patch is unchanged. -/
theorem shrinkFreq_zero (fexp : ℚ → ℚ) (hfexp : fexp 0 = 1) (gamma_f : ℚ)
    (yF gF : ℕ → ℕ → ℕ → ℚ × ℚ) :
    ShrinkFreq fexp gamma_f 0 yF gF = yF := by
  funext col row chan
  simp only [ShrinkFreq]
  split
  case isTrue h =>
    have h0 : -gamma_f * (0 : ℚ)
        / ((gF col row chan).1 * (gF col row chan).1
          + (gF col row chan).2 * (gF col row chan).2) = 0 := by ring
    rw [h0, hfexp, mul_one, mul_one]
  case isFalse h => rfl

/-- One step of the σ = 0 invariant: if the accumulated output is the
weights image times the noisy image pointwise, it stays so after one loop
iteration (the regression plane and the mask cancel algebraically and the
shrinkage is the identity). -/
theorem blockStep_sigma0_invariant (fexp : ℚ → ℚ)
    (Ft St : (ℕ → ℕ → ℕ → ℚ × ℚ) → (ℕ → ℕ → ℕ → ℚ × ℚ))
    (p : BlockParams) (st : BlockState)
    (hσ : p.sigma = 0) (hfexp : fexp 0 = 1)
    (hdft : ∀ q : ℕ → ℕ → ℕ → ℚ × ℚ, ∀ c0 r0 chan,
      (St (Ft q) c0 r0 chan).1 = (q c0 r0 chan).1)
    (hst : ∀ c0 r0 chan, st.output c0 r0 chan
      = st.weights c0 r0 * p.noisy.val c0 r0 chan) :
    ∀ c0 r0 chan, (blockStep fexp Ft St p st).output c0 r0 chan
      = (blockStep fexp Ft St p st).weights c0 r0
        * p.noisy.val c0 r0 chan := by
  intro c0 r0 chan
  have hsf2 : blockSf2 fexp p st = 0 := by
    rw [blockSf2, sigmaF2, hσ]
    ring
  have hySp : blockYSpace fexp Ft St p st
      = St (Ft (blockYm fexp p st).1) := by
    rw [blockYSpace, blockGuideFreq, hsf2, shrinkFreq_zero fexp hfexp]
  simp only [blockStep]
  by_cases hwin : (blockAnchor p st).2 ≤ c0
      ∧ c0 < (blockAnchor p st).2 + blockS p
      ∧ (blockAnchor p st).1 ≤ r0
      ∧ r0 < (blockAnchor p st).1 + blockS p
  · rw [if_pos hwin, if_pos hwin, hst]
    rw [hySp, hdft]
    simp only [blockYm, ModifyPatch, blockY1, SubtractPlane, blockY, extractF]
    rw [Nat.add_sub_cancel' hwin.1, Nat.add_sub_cancel' hwin.2.2.1]
    ring
  · rw [if_neg hwin, if_neg hwin, hst]

/-- C1: for σ = 0 and guide = noisy, after any number of iterations of the
DA3D_block main loop the accumulated output equals the weights image times
the noisy input at every pixel and channel; hence the weight-normalised
output (the value DA3D returns after merging) equals the input exactly
wherever the accumulated weight is nonzero.  (Exact rational arithmetic;
exactness implies the claimed floating-point tolerance.) -/
theorem da3d_block_sigma_zero (fexp : ℚ → ℚ)
    (Ft St : (ℕ → ℕ → ℕ → ℚ × ℚ) → (ℕ → ℕ → ℕ → ℚ × ℚ))
    (p : BlockParams)
    (hσ : p.sigma = 0) (hguide : p.guide = p.noisy) (hfexp : fexp 0 = 1)
    (hdft : ∀ q : ℕ → ℕ → ℕ → ℚ × ℚ, ∀ c0 r0 chan,
      (St (Ft q) c0 r0 chan).1 = (q c0 r0 chan).1)
    (n : ℕ) (c0 r0 chan : ℕ) :
    ((blockStep fexp Ft St p)^[n] initState).output c0 r0 chan
      = ((blockStep fexp Ft St p)^[n] initState).weights c0 r0
        * p.noisy.val c0 r0 chan ∧
    (((blockStep fexp Ft St p)^[n] initState).weights c0 r0 ≠ 0 →
      ((blockStep fexp Ft St p)^[n] initState).output c0 r0 chan
        / ((blockStep fexp Ft St p)^[n] initState).weights c0 r0
        = p.noisy.val c0 r0 chan) := by
  have main : ∀ m, ∀ a b ch,
      ((blockStep fexp Ft St p)^[m] initState).output a b ch
        = ((blockStep fexp Ft St p)^[m] initState).weights a b
          * p.noisy.val a b ch := by
    intro m
    induction m with
    | zero =>
      intro a b ch
      simp [initState]
    | succ m ih =>
      intro a b ch
      rw [Function.iterate_succ_apply']
      exact blockStep_sigma0_invariant fexp Ft St p _ hσ hfexp hdft ih a b ch
  refine ⟨main n c0 r0 chan, fun hw => ?_⟩
  rw [main n c0 r0 chan, mul_comm, mul_div_assoc, div_self hw, mul_one]

/-- Concrete instance of C1: a 4×4 constant image with σ = 0, guide = noisy,
identity DFT pair, after one iteration, at pixel (0, 0, 0). -/
theorem da3d_block_sigma_zero_witness :
    ((BlockParams.mk (FImg.mk 4 4 1 (fun _ _ _ => 1/2))
          (FImg.mk 4 4 1 (fun _ _ _ => 1/2)) 0 1 1 1 1).sigma = 0 ∧
      (BlockParams.mk (FImg.mk 4 4 1 (fun _ _ _ => 1/2))
          (FImg.mk 4 4 1 (fun _ _ _ => 1/2)) 0 1 1 1 1).guide
        = (BlockParams.mk (FImg.mk 4 4 1 (fun _ _ _ => 1/2))
          (FImg.mk 4 4 1 (fun _ _ _ => 1/2)) 0 1 1 1 1).noisy ∧
      (fun (_ : ℚ) => (1 : ℚ)) 0 = 1 ∧
      (∀ q : ℕ → ℕ → ℕ → ℚ × ℚ, ∀ c0 r0 chan,
        (id (id q) c0 r0 chan).1 = (q c0 r0 chan).1)) ∧
    (((blockStep (fun _ => 1) id id
          (BlockParams.mk (FImg.mk 4 4 1 (fun _ _ _ => 1/2))
            (FImg.mk 4 4 1 (fun _ _ _ => 1/2)) 0 1 1 1 1))^[1]
          initState).output 0 0 0
        = ((blockStep (fun _ => 1) id id
          (BlockParams.mk (FImg.mk 4 4 1 (fun _ _ _ => 1/2))
            (FImg.mk 4 4 1 (fun _ _ _ => 1/2)) 0 1 1 1 1))^[1]
          initState).weights 0 0
          * (BlockParams.mk (FImg.mk 4 4 1 (fun _ _ _ => 1/2))
            (FImg.mk 4 4 1 (fun _ _ _ => 1/2)) 0 1 1 1 1).noisy.val 0 0 0 ∧
      (((blockStep (fun _ => 1) id id
          (BlockParams.mk (FImg.mk 4 4 1 (fun _ _ _ => 1/2))
            (FImg.mk 4 4 1 (fun _ _ _ => 1/2)) 0 1 1 1 1))^[1]
          initState).weights 0 0 ≠ 0 →
        ((blockStep (fun _ => 1) id id
          (BlockParams.mk (FImg.mk 4 4 1 (fun _ _ _ => 1/2))
            (FImg.mk 4 4 1 (fun _ _ _ => 1/2)) 0 1 1 1 1))^[1]
          initState).output 0 0 0
          / ((blockStep (fun _ => 1) id id
            (BlockParams.mk (FImg.mk 4 4 1 (fun _ _ _ => 1/2))
              (FImg.mk 4 4 1 (fun _ _ _ => 1/2)) 0 1 1 1 1))^[1]
            initState).weights 0 0
          = (BlockParams.mk (FImg.mk 4 4 1 (fun _ _ _ => 1/2))
            (FImg.mk 4 4 1 (fun _ _ _ => 1/2)) 0 1 1 1 1).noisy.val 0 0 0)) :=
  ⟨⟨rfl, rfl, rfl, fun q c0 r0 chan => rfl⟩,
    da3d_block_sigma_zero (fun _ => 1) id id
      (BlockParams.mk (FImg.mk 4 4 1 (fun _ _ _ => 1/2))
        (FImg.mk 4 4 1 (fun _ _ _ => 1/2)) 0 1 1 1 1)
      rfl rfl rfl (fun q c0 r0 chan => rfl) 1 0 0 0⟩

theorem foldlMin_le (w : ℕ → ℕ → ℚ) :
    ∀ (l : List (ℕ × ℕ)) (b : ℕ × ℕ),
      w (l.foldl (fun best q =>
          if w q.1 q.2 < w best.1 best.2 then q else best) b).1
        (l.foldl (fun best q =>
          if w q.1 q.2 < w best.1 best.2 then q else best) b).2
        ≤ w b.1 b.2 ∧
      ∀ q ∈ l,
        w (l.foldl (fun best q =>
            if w q.1 q.2 < w best.1 best.2 then q else best) b).1
          (l.foldl (fun best q =>
            if w q.1 q.2 < w best.1 best.2 then q else best) b).2
          ≤ w q.1 q.2 := by
  intro l
  induction l with
  | nil =>
    intro b
    exact ⟨le_refl _, fun q hq => absurd hq (List.not_mem_nil q)⟩
  | cons hd tl ih =>
    intro b
    rw [List.foldl_cons]
    obtain ⟨h1, h2⟩ := ih (if w hd.1 hd.2 < w b.1 b.2 then hd else b)
    have hstep : w (if w hd.1 hd.2 < w b.1 b.2 then hd else b).1
          (if w hd.1 hd.2 < w b.1 b.2 then hd else b).2 ≤ w b.1 b.2 ∧
        w (if w hd.1 hd.2 < w b.1 b.2 then hd else b).1
          (if w hd.1 hd.2 < w b.1 b.2 then hd else b).2 ≤ w hd.1 hd.2 := by
      split
      case isTrue h => exact ⟨le_of_lt h, le_refl _⟩
      case isFalse h => exact ⟨le_refl _, not_lt.mp h⟩
    refine ⟨h1.trans hstep.1, fun q hq => ?_⟩
    rcases List.mem_cons.mp hq with hq1 | hq2
    · subst hq1
      exact h1.trans hstep.2
    · exact h2 q hq2

theorem foldlMin_mem (w : ℕ → ℕ → ℚ) :
    ∀ (l : List (ℕ × ℕ)) (b : ℕ × ℕ),
      l.foldl (fun best q =>
          if w q.1 q.2 < w best.1 best.2 then q else best) b = b ∨
      l.foldl (fun best q =>
          if w q.1 q.2 < w best.1 best.2 then q else best) b ∈ l := by
  intro l
  induction l with
  | nil => intro b; exact Or.inl rfl
  | cons hd tl ih =>
    intro b
    rw [List.foldl_cons]
    rcases ih (if w hd.1 hd.2 < w b.1 b.2 then hd else b) with h | h
    · rw [h]
      split
      case isTrue h2 => exact Or.inr (List.mem_cons_self hd tl)
      case isFalse h2 => exact Or.inl rfl
    · exact Or.inr (List.mem_cons_of_mem hd h)

theorem findMinimum_le (nr nc : ℕ) (w : ℕ → ℕ → ℚ) (i j : ℕ)
    (hi : i < nr) (hj : j < nc) : Minimum nr nc w ≤ w i j := by
  have hnc : 0 < nc := by omega
  have hmem : (i, j) ∈ cellList nr nc := by
    simp only [cellList, List.mem_map, List.mem_range]
    refine ⟨i * nc + j, ?_, ?_⟩
    · calc i * nc + j < i * nc + nc := by omega
        _ = (i + 1) * nc := by ring
        _ ≤ nr * nc := Nat.mul_le_mul_right _ (by omega)
    · have h1 : (i * nc + j) / nc = i := by
        rw [show i * nc + j = nc * i + j from by ring, Nat.mul_add_div hnc,
          Nat.div_eq_of_lt hj, Nat.add_zero]
      have h2 : (i * nc + j) % nc = j := by
        rw [show i * nc + j = nc * i + j from by ring, Nat.mul_add_mod,
          Nat.mod_eq_of_lt hj]
      rw [h1, h2]
  exact (foldlMin_le w (cellList nr nc) (0, 0)).2 (i, j) hmem

theorem findMinimum_mem (nr nc : ℕ) (hnr : 0 < nr) (hnc : 0 < nc)
    (w : ℕ → ℕ → ℚ) :
    (FindMinimum nr nc w).1 < nr ∧ (FindMinimum nr nc w).2 < nc := by
  rcases foldlMin_mem w (cellList nr nc) (0, 0) with h | h
  · have h' : FindMinimum nr nc w = (0, 0) := h
    rw [h']
    exact ⟨hnr, hnc⟩
  · have h' : FindMinimum nr nc w ∈ cellList nr nc := h
    simp only [cellList, List.mem_map, List.mem_range] at h'
    obtain ⟨idx, hidx, heq⟩ := h'
    rw [← heq]
    constructor
    · rw [Nat.div_lt_iff_lt_mul hnc]
      exact hidx
    · exact Nat.mod_lt _ hnc

theorem minimum_mono (nr nc : ℕ) (hnr : 0 < nr) (hnc : 0 < nc)
    (w w2 : ℕ → ℕ → ℚ)
    (hww : ∀ i j, i < nr → j < nc → w i j ≤ w2 i j) :
    Minimum nr nc w ≤ Minimum nr nc w2 := by
  obtain ⟨h1, h2⟩ := findMinimum_mem nr nc hnr hnc w2
  calc Minimum nr nc w ≤ w (FindMinimum nr nc w2).1 (FindMinimum nr nc w2).2
        := findMinimum_le nr nc w _ _ h1 h2
    _ ≤ w2 (FindMinimum nr nc w2).1 (FindMinimum nr nc w2).2
        := hww _ _ h1 h2

theorem blockStep_agg_mono (fexp : ℚ → ℚ)
    (Ft St : (ℕ → ℕ → ℕ → ℚ × ℚ) → (ℕ → ℕ → ℕ → ℚ × ℚ))
    (p : BlockParams) (st : BlockState) (i j : ℕ) :
    st.agg i j ≤ (blockStep fexp Ft St p st).agg i j := by
  simp only [blockStep, IncreaseWeights]
  split
  · exact le_add_of_nonneg_right (mul_self_nonneg _)
  · exact le_refl _

/-- The mask value at the patch center is fastexp(0) = 1: the range distance
to the center is zero and the spatial offset is zero. -/
theorem blockK_center (fexp : ℚ → ℚ) (p : BlockParams) (st : BlockState)
    (hfexp : fexp 0 = 1) : blockK fexp p st p.r p.r = 1 := by
  unfold blockK BilateralWeight
  simp only [sub_self, mul_zero, zero_mul, Finset.sum_const_zero, zero_div,
    add_zero, zero_add, neg_zero]
  exact hfexp

/-- Each iteration adds exactly 1 (the squared center mask value) to the
weight-map cell of the selected anchor. -/
theorem blockStep_agg_argmin (fexp : ℚ → ℚ)
    (Ft St : (ℕ → ℕ → ℕ → ℚ × ℚ) → (ℕ → ℕ → ℕ → ℚ × ℚ))
    (p : BlockParams) (st : BlockState) (hfexp : fexp 0 = 1) :
    (blockStep fexp Ft St p st).agg (blockAnchor p st).1 (blockAnchor p st).2
      = st.agg (blockAnchor p st).1 (blockAnchor p st).2 + 1 := by
  have hr_lt : p.r < blockS p :=
    lt_of_lt_of_le (by omega) (le_nextPowerOfTwo (2 * p.r + 1))
  have hnr : 0 < blockNr p := by unfold blockNr; omega
  have hnc : 0 < blockNc p := by unfold blockNc; omega
  obtain ⟨hin1, hin2⟩ :=
    findMinimum_mem (blockNr p) (blockNc p) hnr hnc st.agg
  simp only [blockStep, IncreaseWeights]
  rw [if_pos ⟨hin1, hin2, by omega, by omega, by omega, by omega⟩]
  have htn : ∀ z : ℕ, ((z : ℤ) - ((z : ℤ) - (p.r : ℤ))).toNat = p.r := by
    intro z; omega
  rw [htn, htn, blockK_center fexp p st hfexp, mul_one]

/-- C3: for every tile and every positive threshold, the DA3D_block main loop
is well-behaved and terminates: the aggregation weight map is non-negative
and pointwise non-decreasing across iterations, Minimum() never decreases
between iterations, and after finitely many iterations Minimum() reaches the
threshold (so the `while (agg_weights.Minimum() < threshold)` loop exits).
Exact arithmetic; `fexp 0 = 1` reflects fastexp being an approximation of
e^x at 0. -/
theorem da3d_block_terminates (fexp : ℚ → ℚ)
    (Ft St : (ℕ → ℕ → ℕ → ℚ × ℚ) → (ℕ → ℕ → ℕ → ℚ × ℚ))
    (p : BlockParams) (threshold : ℚ)
    (hτ : 0 < threshold) (hfexp : fexp 0 = 1) :
    (∀ n i j, 0 ≤ ((blockStep fexp Ft St p)^[n] initState).agg i j) ∧
    (∀ n i j, ((blockStep fexp Ft St p)^[n] initState).agg i j
      ≤ ((blockStep fexp Ft St p)^[n + 1] initState).agg i j) ∧
    (∀ n, Minimum (blockNr p) (blockNc p)
        ((blockStep fexp Ft St p)^[n] initState).agg
      ≤ Minimum (blockNr p) (blockNc p)
        ((blockStep fexp Ft St p)^[n + 1] initState).agg) ∧
    (∃ n, threshold ≤ Minimum (blockNr p) (blockNc p)
      ((blockStep fexp Ft St p)^[n] initState).agg) := by
  have hnr : 0 < blockNr p := by unfold blockNr; omega
  have hnc : 0 < blockNc p := by unfold blockNc; omega
  have hnonneg : ∀ n i j,
      0 ≤ ((blockStep fexp Ft St p)^[n] initState).agg i j := by
    intro n
    induction n with
    | zero => intro i j; exact le_refl 0
    | succ n ih =>
      intro i j
      rw [Function.iterate_succ_apply']
      exact (ih i j).trans (blockStep_agg_mono fexp Ft St p _ i j)
  have hstep_mono : ∀ n i j,
      ((blockStep fexp Ft St p)^[n] initState).agg i j
        ≤ ((blockStep fexp Ft St p)^[n + 1] initState).agg i j := by
    intro n i j
    rw [Function.iterate_succ_apply']
    exact blockStep_agg_mono fexp Ft St p _ i j
  have hminmono : ∀ n, Minimum (blockNr p) (blockNc p)
        ((blockStep fexp Ft St p)^[n] initState).agg
      ≤ Minimum (blockNr p) (blockNc p)
        ((blockStep fexp Ft St p)^[n + 1] initState).agg := by
    intro n
    exact minimum_mono (blockNr p) (blockNc p) hnr hnc _ _
      (fun i j _ _ => hstep_mono n i j)
  refine ⟨hnonneg, hstep_mono, hminmono, ?_⟩
  have hτT : threshold ≤ ((⌈threshold⌉₊ : ℕ) : ℚ) := Nat.le_ceil threshold
  have hdec : ∀ n, Minimum (blockNr p) (blockNc p)
        ((blockStep fexp Ft St p)^[n] initState).agg < threshold →
      (∑ q ∈ Finset.range (blockNr p) ×ˢ Finset.range (blockNc p),
          (⌈threshold⌉₊ - min ⌈threshold⌉₊
            ⌊((blockStep fexp Ft St p)^[n + 1] initState).agg q.1 q.2⌋₊))
        < ∑ q ∈ Finset.range (blockNr p) ×ˢ Finset.range (blockNc p),
          (⌈threshold⌉₊ - min ⌈threshold⌉₊
            ⌊((blockStep fexp Ft St p)^[n] initState).agg q.1 q.2⌋₊) := by
    intro n hlt
    apply Finset.sum_lt_sum
    · intro q _
      have hle := hstep_mono n q.1 q.2
      have hfl := Nat.floor_le_floor hle
      omega
    · refine ⟨blockAnchor p ((blockStep fexp Ft St p)^[n] initState), ?_, ?_⟩
      · simp only [Finset.mem_product, Finset.mem_range]
        exact findMinimum_mem (blockNr p) (blockNc p) hnr hnc _
      · have hupd := blockStep_agg_argmin fexp Ft St p
          ((blockStep fexp Ft St p)^[n] initState) hfexp
        have hnn : 0 ≤ ((blockStep fexp Ft St p)^[n] initState).agg
            (blockAnchor p ((blockStep fexp Ft St p)^[n] initState)).1
            (blockAnchor p ((blockStep fexp Ft St p)^[n] initState)).2 :=
          hnonneg n _ _
        have hvlt : ((blockStep fexp Ft St p)^[n] initState).agg
            (blockAnchor p ((blockStep fexp Ft St p)^[n] initState)).1
            (blockAnchor p ((blockStep fexp Ft St p)^[n] initState)).2
            < ((⌈threshold⌉₊ : ℕ) : ℚ) := lt_of_lt_of_le hlt hτT
        have hfl_lt : ⌊((blockStep fexp Ft St p)^[n] initState).agg
            (blockAnchor p ((blockStep fexp Ft St p)^[n] initState)).1
            (blockAnchor p ((blockStep fexp Ft St p)^[n] initState)).2⌋₊
            < ⌈threshold⌉₊ := (Nat.floor_lt hnn).mpr hvlt
        have hfl_new : ⌊((blockStep fexp Ft St p)^[n + 1] initState).agg
            (blockAnchor p ((blockStep fexp Ft St p)^[n] initState)).1
            (blockAnchor p ((blockStep fexp Ft St p)^[n] initState)).2⌋₊
            = ⌊((blockStep fexp Ft St p)^[n] initState).agg
            (blockAnchor p ((blockStep fexp Ft St p)^[n] initState)).1
            (blockAnchor p ((blockStep fexp Ft St p)^[n] initState)).2⌋₊
              + 1 := by
          rw [Function.iterate_succ_apply', hupd, Nat.floor_add_one hnn]
        omega
  have reach : ∀ bound n,
      (∑ q ∈ Finset.range (blockNr p) ×ˢ Finset.range (blockNc p),
          (⌈threshold⌉₊ - min ⌈threshold⌉₊
            ⌊((blockStep fexp Ft St p)^[n] initState).agg q.1 q.2⌋₊))
        ≤ bound →
      ∃ m, threshold ≤ Minimum (blockNr p) (blockNc p)
        ((blockStep fexp Ft St p)^[m] initState).agg := by
    intro bound
    induction bound with
    | zero =>
      intro n hb
      by_cases h : threshold ≤ Minimum (blockNr p) (blockNc p)
          ((blockStep fexp Ft St p)^[n] initState).agg
      · exact ⟨n, h⟩
      · push_neg at h
        have := hdec n h
        omega
    | succ b ih =>
      intro n hb
      by_cases h : threshold ≤ Minimum (blockNr p) (blockNc p)
          ((blockStep fexp Ft St p)^[n] initState).agg
      · exact ⟨n, h⟩
      · push_neg at h
        exact ih (n + 1) (by have := hdec n h; omega)
  exact reach (∑ q ∈ Finset.range (blockNr p) ×ˢ Finset.range (blockNc p),
    (⌈threshold⌉₊ - min ⌈threshold⌉₊
      ⌊((blockStep fexp Ft St p)^[0] initState).agg q.1 q.2⌋₊)) 0 (le_refl _)

/-- Concrete instance of C3: 4×4 constant images, r = 1, σ = 1,
threshold = 1, fastexp modelled by the constant-1 function. -/
theorem da3d_block_terminates_witness :
    ((0 : ℚ) < 1 ∧ (fun (_ : ℚ) => (1 : ℚ)) 0 = 1) ∧
    ((∀ n i j, 0 ≤ ((blockStep (fun _ => 1) id id
        (BlockParams.mk (FImg.mk 4 4 1 (fun _ _ _ => 1/2))
          (FImg.mk 4 4 1 (fun _ _ _ => 1/2)) 1 1 1 1 1))^[n]
        initState).agg i j) ∧
      (∀ n i j, ((blockStep (fun _ => 1) id id
          (BlockParams.mk (FImg.mk 4 4 1 (fun _ _ _ => 1/2))
            (FImg.mk 4 4 1 (fun _ _ _ => 1/2)) 1 1 1 1 1))^[n]
          initState).agg i j
        ≤ ((blockStep (fun _ => 1) id id
          (BlockParams.mk (FImg.mk 4 4 1 (fun _ _ _ => 1/2))
            (FImg.mk 4 4 1 (fun _ _ _ => 1/2)) 1 1 1 1 1))^[n + 1]
          initState).agg i j) ∧
      (∀ n, Minimum (blockNr (BlockParams.mk
            (FImg.mk 4 4 1 (fun _ _ _ => 1/2))
            (FImg.mk 4 4 1 (fun _ _ _ => 1/2)) 1 1 1 1 1))
          (blockNc (BlockParams.mk (FImg.mk 4 4 1 (fun _ _ _ => 1/2))
            (FImg.mk 4 4 1 (fun _ _ _ => 1/2)) 1 1 1 1 1))
          ((blockStep (fun _ => 1) id id
            (BlockParams.mk (FImg.mk 4 4 1 (fun _ _ _ => 1/2))
              (FImg.mk 4 4 1 (fun _ _ _ => 1/2)) 1 1 1 1 1))^[n]
            initState).agg
        ≤ Minimum (blockNr (BlockParams.mk
            (FImg.mk 4 4 1 (fun _ _ _ => 1/2))
            (FImg.mk 4 4 1 (fun _ _ _ => 1/2)) 1 1 1 1 1))
          (blockNc (BlockParams.mk (FImg.mk 4 4 1 (fun _ _ _ => 1/2))
            (FImg.mk 4 4 1 (fun _ _ _ => 1/2)) 1 1 1 1 1))
          ((blockStep (fun _ => 1) id id
            (BlockParams.mk (FImg.mk 4 4 1 (fun _ _ _ => 1/2))
              (FImg.mk 4 4 1 (fun _ _ _ => 1/2)) 1 1 1 1 1))^[n + 1]
            initState).agg) ∧
      (∃ n, (1 : ℚ) ≤ Minimum (blockNr (BlockParams.mk
            (FImg.mk 4 4 1 (fun _ _ _ => 1/2))
            (FImg.mk 4 4 1 (fun _ _ _ => 1/2)) 1 1 1 1 1))
          (blockNc (BlockParams.mk (FImg.mk 4 4 1 (fun _ _ _ => 1/2))
            (FImg.mk 4 4 1 (fun _ _ _ => 1/2)) 1 1 1 1 1))
          ((blockStep (fun _ => 1) id id
            (BlockParams.mk (FImg.mk 4 4 1 (fun _ _ _ => 1/2))
              (FImg.mk 4 4 1 (fun _ _ _ => 1/2)) 1 1 1 1 1))^[n]
            initState).agg)) :=
  ⟨⟨by norm_num, rfl⟩,
    da3d_block_terminates (fun _ => 1) id id
      (BlockParams.mk (FImg.mk 4 4 1 (fun _ _ _ => 1/2))
        (FImg.mk 4 4 1 (fun _ _ _ => 1/2)) 1 1 1 1 1) 1
      (by norm_num) rfl⟩

/-! ### The guide spectrum can vanish at non-DC bins (C10)

To exhibit a concrete execution of the shrinkage loop the DFT collaborator is
instantiated at the smallest pipeline size S = 4 (radius r = 1), where the
twiddle factors are the fourth roots of unity and the transform is exact over
ℚ × ℚ. -/

/-- Complex multiplication on ℚ × ℚ pairs (re, im). -/
def cmulQ (x y : ℚ × ℚ) : ℚ × ℚ :=
  (x.1 * y.1 - x.2 * y.2, x.1 * y.2 + x.2 * y.1)

/-- The powers of ω = e^(−2πi/4) = −i: ω^k for k mod 4. -/
def w4 (k : ℕ) : ℚ × ℚ :=
  if k % 4 = 0 then (1, 0)
  else if k % 4 = 1 then (0, -1)
  else if k % 4 = 2 then (-1, 0)
  else (0, 1)

/-- Modelled from the spec: the forward 2-D DFT of the DftPatch collaborator
(spec §4.2, §6) at size S = 4: `F(u,v) = Σ_{x,y} f(x,y)·ω^(u·x+v·y)`. -/
def dft4 (f : ℕ → ℕ → ℕ → ℚ × ℚ) : ℕ → ℕ → ℕ → ℚ × ℚ :=
  fun u v chan => ∑ x ∈ Finset.range 4, ∑ y ∈ Finset.range 4,
    cmulQ (f x y chan) (w4 (u * x + v * y))

/-- All non-DC twiddle sums over the 4×4 grid vanish. -/
theorem w4_sums_vanish (u v : ℕ) (hu : u < 4) (hv : v < 4)
    (hne : ¬(u = 0 ∧ v = 0)) :
    (∑ x ∈ Finset.range 4, ∑ y ∈ Finset.range 4,
      (w4 (u * x + v * y)).1) = 0 ∧
    (∑ x ∈ Finset.range 4, ∑ y ∈ Finset.range 4,
      (w4 (u * x + v * y)).2) = 0 := by
  interval_cases u <;> interval_cases v <;>
    simp_all [Finset.sum_range_succ, w4]

/-- On a constant guide tile (with noisy = guide) the regression plane is
zero, the masked guide patch is the same constant, and the whole non-DC guide
spectrum is exactly zero. -/
theorem blockG2_const_guide_aux (fexp : ℚ → ℚ) (p : BlockParams)
    (st : BlockState) (c : ℕ → ℚ)
    (hr1 : p.r = 1)
    (hconst : ∀ col row chan, p.guide.val col row chan = c chan)
    (hnoisy : p.noisy = p.guide)
    (hfexp_pos : ∀ x, 0 < fexp x)
    (u v chan : ℕ) (hu : u < 4) (hv : v < 4) (hne : ¬(u = 0 ∧ v = 0)) :
    blockG2 fexp dft4 p st u v chan = 0 := by
  have hS : blockS p = 4 := by rw [blockS, hr1]; rfl
  have hY : ∀ col row chan2, blockY p st col row chan2 = c chan2 := by
    intro col row chan2
    rw [blockY, extractF, hnoisy, hconst]
  have hG : ∀ col row chan2, blockG p st col row chan2 = c chan2 := by
    intro col row chan2
    rw [blockG, extractF, hconst]
  have hplane : ∀ chan2, blockPlane fexp p st chan2 = (0, 0) := by
    intro chan2
    simp only [blockPlane, ComputeRegressionPlane]
    split
    · rfl
    · have hd : (∑ row ∈ Finset.range (blockS p),
          ∑ col ∈ Finset.range (blockS p),
          ((row : ℚ) - p.r) * (blockY p st col row chan2
            - blockG p st p.r p.r chan2)
            * blockKreg fexp p st col row) = 0 := by
        apply Finset.sum_eq_zero
        intro row _
        apply Finset.sum_eq_zero
        intro col _
        rw [hY, hG, sub_self, mul_zero, zero_mul]
      have he : (∑ row ∈ Finset.range (blockS p),
          ∑ col ∈ Finset.range (blockS p),
          ((col : ℚ) - p.r) * (blockY p st col row chan2
            - blockG p st p.r p.r chan2)
            * blockKreg fexp p st col row) = 0 := by
        apply Finset.sum_eq_zero
        intro row _
        apply Finset.sum_eq_zero
        intro col _
        rw [hY, hG, sub_self, mul_zero, zero_mul]
      rw [hd, he]
      simp
  have hg1 : ∀ col row chan2, blockG1 fexp p st col row chan2 = c chan2 := by
    intro col row chan2
    simp only [blockG1, SubtractPlane]
    rw [hplane chan2, hG]
    simp
  have hW : 0 < ∑ row ∈ Finset.range (blockS p),
      ∑ col ∈ Finset.range (blockS p), blockK fexp p st col row := by
    apply Finset.sum_pos
    · intro row _
      apply Finset.sum_pos
      · intro col _
        unfold blockK BilateralWeight
        exact hfexp_pos _
      · rw [hS]
        exact ⟨0, Finset.mem_range.mpr (by omega)⟩
    · rw [hS]
      exact ⟨0, Finset.mem_range.mpr (by omega)⟩
  have hgm1 : ∀ col row chan2,
      (blockGm fexp p st).1 col row chan2 = (c chan2, 0) := by
    intro col row chan2
    simp only [blockGm, ModifyPatch, hg1]
    have hsum : (∑ row2 ∈ Finset.range (blockS p),
        ∑ col2 ∈ Finset.range (blockS p),
        blockK fexp p st col2 row2 * c chan2)
        = (∑ row2 ∈ Finset.range (blockS p),
          ∑ col2 ∈ Finset.range (blockS p),
          blockK fexp p st col2 row2) * c chan2 := by
      rw [Finset.sum_mul]
      apply Finset.sum_congr rfl
      intro x _
      rw [Finset.sum_mul]
    rw [hsum, mul_div_cancel_left₀ (c chan2) hW.ne']
    rw [show blockK fexp p st col row * c chan2
        + (1 - blockK fexp p st col row) * c chan2 = c chan2 from by ring]
  have hfreq1 : (blockGuideFreq fexp dft4 p st u v chan).1
      = c chan * ∑ x ∈ Finset.range 4, ∑ y ∈ Finset.range 4,
        (w4 (u * x + v * y)).1 := by
    simp only [blockGuideFreq, dft4, hgm1, cmulQ, Prod.fst_sum, zero_mul,
      mul_zero, sub_zero]
    rw [Finset.mul_sum]
    apply Finset.sum_congr rfl
    intro x _
    rw [Finset.mul_sum]
  have hfreq2 : (blockGuideFreq fexp dft4 p st u v chan).2
      = c chan * ∑ x ∈ Finset.range 4, ∑ y ∈ Finset.range 4,
        (w4 (u * x + v * y)).2 := by
    simp only [blockGuideFreq, dft4, hgm1, cmulQ, Prod.snd_sum, zero_mul,
      mul_zero, add_zero]
    rw [Finset.mul_sum]
    apply Finset.sum_congr rfl
    intro x _
    rw [Finset.mul_sum]
  obtain ⟨hw1, hw2⟩ := w4_sums_vanish u v hu hv hne
  rw [blockG2, hfreq1, hfreq2, hw1, hw2]
  ring

/-- C10 counterexample: on the concrete 4×4 constant image (value 1/2, one
channel, σ = 1, r = 1) the main loop runs and the shrinkage loop reaches the
non-DC bin (col, row) = (1, 0) with `|G(1,0,0)|² = 0` exactly, so the divisor
`G2` of `fastexp`'s argument is not nonzero on every reached bin. -/
theorem blockG2_reaches_zero_divisor :
    blockG2 (fun _ => 1) dft4
      (BlockParams.mk (FImg.mk 4 4 1 (fun _ _ _ => 1/2))
        (FImg.mk 4 4 1 (fun _ _ _ => 1/2)) 1 1 1 1 1) initState 1 0 0 = 0 :=
  blockG2_const_guide_aux (fun _ => 1)
    (BlockParams.mk (FImg.mk 4 4 1 (fun _ _ _ => 1/2))
      (FImg.mk 4 4 1 (fun _ _ _ => 1/2)) 1 1 1 1 1)
    initState (fun _ => 1/2) rfl (fun _ _ _ => rfl) rfl
    (fun _ => one_pos) 1 0 0 (by decide) (by decide) (by decide)

/-- C10 (amended): the division `sigma_f2 / g2` feeding `fastexp` in the
shrinkage loop (src/DA3D.cpp lines 269-275) is unguarded, and `|G(u,v,ch)|²`
is not guaranteed nonzero at reached non-DC bins: whenever the guide tile is
constant (with noisy = guide), the masked guide patch is constant, so every
non-DC bin of its spectrum — hence the divisor `g2` — is exactly zero. At bins
where `g2 ≠ 0` the argument is the finite value `−γ_f · σ_f² / g2`. -/
theorem blockG2_vanishes_on_constant_guide (fexp : ℚ → ℚ) (p : BlockParams)
    (st : BlockState) (c : ℕ → ℚ)
    (hr1 : p.r = 1)
    (hconst : ∀ col row chan, p.guide.val col row chan = c chan)
    (hnoisy : p.noisy = p.guide)
    (hfexp_pos : ∀ x, 0 < fexp x)
    (u v chan : ℕ) (hu : u < 4) (hv : v < 4) (hne : ¬(u = 0 ∧ v = 0)) :
    blockG2 fexp dft4 p st u v chan = 0 :=
  blockG2_const_guide_aux fexp p st c hr1 hconst hnoisy hfexp_pos
    u v chan hu hv hne

/-- Witness for the amended C10 theorem at the constant 4×4 image, value 1/2,
bin (1, 0), channel 0. -/
theorem blockG2_vanishes_on_constant_guide_witness :
    ((BlockParams.mk (FImg.mk 4 4 1 (fun _ _ _ => 1/2))
        (FImg.mk 4 4 1 (fun _ _ _ => 1/2)) 1 1 1 1 1).r = 1 ∧
      (∀ col row chan,
        (BlockParams.mk (FImg.mk 4 4 1 (fun _ _ _ => 1/2))
          (FImg.mk 4 4 1 (fun _ _ _ => 1/2)) 1 1 1 1 1).guide.val col row chan
          = (fun _ : ℕ => (1/2 : ℚ)) chan) ∧
      (BlockParams.mk (FImg.mk 4 4 1 (fun _ _ _ => 1/2))
          (FImg.mk 4 4 1 (fun _ _ _ => 1/2)) 1 1 1 1 1).noisy
        = (BlockParams.mk (FImg.mk 4 4 1 (fun _ _ _ => 1/2))
          (FImg.mk 4 4 1 (fun _ _ _ => 1/2)) 1 1 1 1 1).guide ∧
      (∀ x : ℚ, 0 < (fun _ : ℚ => (1 : ℚ)) x) ∧
      (1 : ℕ) < 4 ∧ (0 : ℕ) < 4 ∧ ¬((1 : ℕ) = 0 ∧ (0 : ℕ) = 0)) ∧
    blockG2 (fun _ => 1) dft4
      (BlockParams.mk (FImg.mk 4 4 1 (fun _ _ _ => 1/2))
        (FImg.mk 4 4 1 (fun _ _ _ => 1/2)) 1 1 1 1 1) initState 1 0 0 = 0 :=
  ⟨⟨rfl, fun _ _ _ => rfl, rfl, fun _ => one_pos,
      by decide, by decide, by decide⟩,
    blockG2_vanishes_on_constant_guide (fun _ => 1)
      (BlockParams.mk (FImg.mk 4 4 1 (fun _ _ _ => 1/2))
        (FImg.mk 4 4 1 (fun _ _ _ => 1/2)) 1 1 1 1 1)
      initState (fun _ => 1/2) rfl (fun _ _ _ => rfl) rfl
      (fun _ => one_pos) 1 0 0 (by decide) (by decide) (by decide)⟩

end DA3D
